import Mathlib

/-!
Verification of the Workspace Context Engine of the refact-lsp repository
against its specification.

The Rust sources are shallowly embedded:
* `f32` values that only ever get compared, clamped and combined by field
  operations are modelled as rationals;
* Rust `String` is modelled as `String` where contents are opaque and as
  `List Char` where the code inspects characters;
* `HashMap` insertion/lookup is modelled as an association list where a later
  insertion shadows earlier ones;
* Rust's stable `sort_by` is modelled as Mathlib's stable `List.insertionSort`;
* the filesystem seen by the patch parser (`read_file_from_disk`, the
  `PathBuf::exists` check) is modelled as a function
  `List Char → Option (List (List Char))` from a path to the file's lines.
-/

/-! ## vecdb: `src/vecdb/vdb_highlev.rs` -/

/-- The constant `VECDB_DISTANCE_REJECT_COMPLETELY: f32 = 0.25` of
`vdb_highlev.rs`. -/
def VECDB_DISTANCE_REJECT_COMPLETELY : ℚ := 1 / 4

/-- The fields of a vector-search record that `VecDb::vecdb_search` reads or
writes (`rec.distance`, `rec.usefulness`); the remaining payload
(`file_path`, `start_line`, `end_line`) is carried along opaquely. -/
structure VecdbRecord where
  file_path : String
  start_line : Nat
  end_line : Nat
  distance : ℚ
  usefulness : ℚ
deriving DecidableEq, Repr

/-- The clamped usefulness value
`100.0 - 75.0 * ((|d| - d0) / (d0 + 0.01)).max(0.0).min(1.0)` computed inside
the `vecdb_search` loop; this is also, word for word, the specification's
formula `100 − 75·clamp((|d|−d0)/(d0+0.01), 0, 1)` for a given anchor
distance `d0`. -/
def usefulness_spec (d0 d : ℚ) : ℚ :=
  100 - 75 * min (max ((|d| - d0) / (d0 + 1 / 100)) 0) 1

/-- The `for rec in results.iter_mut()` loop of `VecDb::vecdb_search`:
`dist0` is set to `rec.distance.abs()` whenever it is still `0.0`; usefulness
is the clamped formula anchored at the current `dist0`; records with
`|d| >= VECDB_DISTANCE_REJECT_COMPLETELY` are dropped, the rest are pushed to
`filtered_results`. -/
def vecdb_search_loop (dist0 : ℚ) : List VecdbRecord → List VecdbRecord
  | [] => []
  | r :: rest =>
    let d0 := if dist0 = 0 then |r.distance| else dist0
    let r2 := { r with usefulness := usefulness_spec d0 r.distance }
    if VECDB_DISTANCE_REJECT_COMPLETELY ≤ |r.distance| then
      vecdb_search_loop d0 rest
    else
      r2 :: vecdb_search_loop d0 rest

/-- The filtered results of `VecDb::vecdb_search` as a function of the raw
nearest-neighbour batch returned by the vector-DB handler
(`let mut dist0 = 0.0;` before the loop). -/
def vecdb_search_filtered (results : List VecdbRecord) : List VecdbRecord :=
  vecdb_search_loop 0 results

/-- The fields of a memory record that `memories_search` reads
(`distance`, `mstat_times_used`) plus an opaque identifier. -/
structure MemoRecord where
  memid : String
  distance : ℚ
  mstat_times_used : Int
deriving DecidableEq, Repr

/-- `calculate_score` from `memories_search` in `vdb_highlev.rs`: the body is
just `distance`; the `times_used` weighting is commented out in the source. -/
def calculate_score (distance : ℚ) (_times_used : Int) : ℚ :=
  distance

/-- `results.sort_by(|a, b| score_a.partial_cmp(&score_b) ...)` at the end of
`memories_search`.  Rust's `sort_by` is a stable sort; it is modelled by the
stable `List.insertionSort` with the same comparator. -/
def memories_search_sort (results : List MemoRecord) : List MemoRecord :=
  List.insertionSort
    (fun a b => calculate_score a.distance a.mstat_times_used ≤
                calculate_score b.distance b.mstat_times_used)
    results

/-- Replace the `mstat_times_used` statistic of a record, leaving every other
field unchanged.  Used to state that the statistic has no influence on the
search ranking. -/
def with_times_used (g : MemoRecord → Int) (r : MemoRecord) : MemoRecord :=
  { r with mstat_times_used := g r }

/-- `VecDbStatus` as described by the specification's data model (the struct
itself lives in `vdb_structs.rs`, outside the provided sources). -/
structure VecDbStatus where
  state : String
  queue_additions : Bool
  queue_depth : Nat
  files_done : Nat
  files_total : Nat
  db_size : Nat
  db_cache_size : Nat
deriving DecidableEq, Repr

/-- `get_status` from `vdb_highlev.rs`: the internal status is cloned,
`db_size`/`db_cache_size` are filled in from the handlers, and if the copy has
`state == "done" && queue_additions` its state is reported as `"parsing"`.
The internal status itself is only read (the code mutates a clone), which the
embedding reflects by returning a new value. -/
def get_status_copy (internal : VecDbStatus) (db_size db_cache_size : Nat) :
    VecDbStatus :=
  let c := { internal with db_size := db_size, db_cache_size := db_cache_size }
  if c.state = "done" ∧ c.queue_additions then
    { c with state := "parsing" }
  else c

/-! ## Document registry: `src/files_in_workspace.rs` -/

/-- The part of `DocumentsState` that `on_did_open` interacts with:
`memory_document_map` (path → live text) and the `cache_dirty` flag. -/
structure DocumentsState where
  memory_document_map : List (String × String)
  cache_dirty : Bool
deriving DecidableEq, Repr

/-- `overwrite_or_create_document`: if a document for the path already exists
its contents are overwritten and `false` is returned as the third component
(no dirty marking); otherwise the document is inserted and `true` is
returned. -/
def overwrite_or_create_document (st : DocumentsState) (path text : String) :
    DocumentsState × Bool :=
  if (st.memory_document_map.lookup path).isSome then
    let m2 := st.memory_document_map.map
      (fun kv => if kv.1 = path then (path, text) else kv)
    ({ st with memory_document_map := m2 }, false)
  else
    let m2 := (path, text) :: st.memory_document_map
    ({ st with memory_document_map := m2 }, true)

/-- `on_did_open(gcx, cpath, text, language_id)`: build a document holding
`text`, pass it to `overwrite_or_create_document`, and set `cache_dirty` only
when `mark_dirty` came back `true`. -/
def on_did_open (st : DocumentsState) (cpath text _language_id : String) :
    DocumentsState :=
  let r := overwrite_or_create_document st cpath text
  if r.2 then { r.1 with cache_dirty := true } else r.1

/-! ## Filename correction cache: `src/files_in_workspace.rs` -/

/-- The suffix-chopping loop of `files_cache_rebuild_as_needed`: for every
occurrence of `'/'` or `'\\'` in the path string, the (nonempty) remainder
after that separator is collected, in left-to-right order. -/
def path_suffixes : List Char → List (List Char)
  | [] => []
  | c :: rest =>
    if (c = '/' ∨ c = '\\') ∧ rest ≠ [] then
      rest :: path_suffixes rest
    else
      path_suffixes rest

/-- One path's insertions into `cache_correction`: first
`insert(path_str, path_str)`, then `insert(suffix, path_str)` for every
chopped suffix.  A `HashMap` insert shadows earlier entries, which the
association-list model realises by prepending (`List.lookup` finds the most
recent insertion first). -/
def cache_insert_path (m : List (List Char × List Char)) (p : List Char) :
    List (List Char × List Char) :=
  (path_suffixes p).foldl (fun acc suf => (suf, p) :: acc) ((p, p) :: m)

/-- The `cache_correction` map built by `files_cache_rebuild_as_needed` from
the concatenated memory/workspace/jsonl path population. -/
def files_cache_rebuild (paths : List (List Char)) :
    List (List Char × List Char) :=
  paths.foldl cache_insert_path []

/-- No two adjacent characters are both `'/'`. -/
def noDoubleSlash : List Char → Bool
  | [] => true
  | [_] => true
  | a :: b :: rest => !(a == '/' && b == '/') && noDoubleSlash (b :: rest)

/-- A canonical absolute path as the data model requires: starts with `'/'`,
contains no backslash separator and no doubled slash. -/
def okPath (p : List Char) : Bool :=
  (p.head? == some '/') && !(p.contains '\\') && noDoubleSlash p

/-- The fuzzy branch of `correct_to_nearest_filename`: push the pair
`(p, sim(candidate, p))` for every entry of `cache_fuzzy`, and whenever the
vector has reached `top_n` records sort it descending by similarity and pop
the last (smallest) one.  `sim` stands for strsim's
`normalized_damerau_levenshtein` applied to the fixed candidate; the sort
models Rust's stable `sort_by(|a, b| b.1.partial_cmp(&a.1))`. -/
def fuzzy_top_n_step (sim : String → ℚ) (top_n : Nat)
    (recs : List (String × ℚ)) (p : String) : List (String × ℚ) :=
  let recs2 := recs ++ [(p, sim p)]
  if top_n ≤ recs2.length then
    (List.insertionSort (fun a b : String × ℚ => b.2 ≤ a.2) recs2).dropLast
  else recs2

/-- The whole `for p in cache_fuzzy_arc.iter()` loop, starting from
`Vec::with_capacity(top_n)` (empty). -/
def fuzzy_top_n_loop (sim : String → ℚ) (top_n : Nat)
    (cache_fuzzy : List String) : List (String × ℚ) :=
  cache_fuzzy.foldl (fuzzy_top_n_step sim top_n) []

/-- `correct_to_nearest_filename(candidate, fuzzy, top_n)` with the two caches
and the similarity function passed explicitly: exact `cache_correction` hit
first; otherwise, when `fuzzy`, the top-n loop over `cache_fuzzy`, mapping each
surviving bare filename back through `cache_correction`. -/
def correct_to_nearest_filename (cache_correction : List (String × String))
    (cache_fuzzy : List String) (sim : String → String → ℚ)
    (correction_candidate : String) (fuzzy : Bool) (top_n : Nat) :
    List String :=
  match cache_correction.lookup correction_candidate with
  | some fixed => [fixed]
  | none =>
    if fuzzy then
      (fuzzy_top_n_loop (sim correction_candidate) top_n cache_fuzzy).map
        (fun pr =>
          match cache_correction.lookup pr.1 with
          | some fixed => fixed
          | none => pr.1)
    else []

/-- The workspace of the specification's concrete scenario 1, as the
`cache_correction` map rebuilt from
`{/a/b/c/frog.py, /a/b/d/toad.py}`. -/
def frog_cache_correction : List (String × String) :=
  [("/a/b/c/frog.py", "/a/b/c/frog.py"),
   ("a/b/c/frog.py", "/a/b/c/frog.py"),
   ("b/c/frog.py", "/a/b/c/frog.py"),
   ("c/frog.py", "/a/b/c/frog.py"),
   ("frog.py", "/a/b/c/frog.py"),
   ("/a/b/d/toad.py", "/a/b/d/toad.py"),
   ("a/b/d/toad.py", "/a/b/d/toad.py"),
   ("b/d/toad.py", "/a/b/d/toad.py"),
   ("d/toad.py", "/a/b/d/toad.py"),
   ("toad.py", "/a/b/d/toad.py")]

/-- The `cache_fuzzy` population of scenario 1 (the bare filenames). -/
def frog_cache_fuzzy : List String :=
  ["frog.py", "toad.py"]

/-- strsim's `normalized_damerau_levenshtein("frog", ·)` on the two bare
filenames of scenario 1 (an external crate, so the two needed values are
supplied directly): the Damerau–Levenshtein distance of `"frog"`/`"frog.py"`
is 3 out of max-length 7, similarity `1 − 3/7 = 4/7`; of
`"frog"`/`"toad.py"` it is 7 out of 7, similarity `0`. -/
def frog_sim : String → ℚ :=
  fun p => if p = "frog.py" then 4 / 7 else 0

/-! ## Unified-diff patch parser: `src/tools/patch/unified_diff_format.rs`

Rust strings are embedded as `List Char`; the filesystem that
`read_file_from_disk` and `PathBuf::exists` consult is a parameter
`fs : List Char → Option (List (List Char))` mapping a path to the file's
lines (`None` = the file does not exist / cannot be read). -/

/-- The fence opening marker scanned by `get_edit_hunks`. -/
def fence_diff_marker : List Char := "```diff".toList

/-- The fence closing marker of `process_fenced_block`. -/
def fence_marker : List Char := "```".toList

/-- The `--- ` header marker. -/
def dash_marker : List Char := "--- ".toList

/-- The `+++ ` header marker. -/
def plus_marker : List Char := "+++ ".toList

/-- The `/dev/null` sentinel. -/
def devnull : List Char := "/dev/null".toList

/-- The `"@@ @@"` line appended to every fenced block. -/
def at_at_line : List Char := "@@ @@".toList

/-- The literal `"\n"` compared against hunk entries in
`process_fenced_block`. -/
def nl_string : List Char := ['\n']

/-- Rust `str::starts_with`. -/
def startsWithC (pre s : List Char) : Bool := List.isPrefixOf pre s

/-- Rust `char::is_whitespace`, used by `str::trim` / `str::trim_start`. -/
def isWhiteC (c : Char) : Bool := c.isWhitespace

/-- Rust `str::trim_start`. -/
def trimStartC (s : List Char) : List Char := s.dropWhile isWhiteC

/-- Rust `str::trim`. -/
def trimC (s : List Char) : List Char :=
  ((s.dropWhile isWhiteC).reverse.dropWhile isWhiteC).reverse

/-- The leading-space count
`line.chars().take_while(|x| x.eq(&' ')).flatten("").len()`. -/
def leadSpacesC (s : List Char) : Nat := (s.takeWhile (fun c => c == ' ')).length

/-- Split at `'\n'`, keeping all pieces (the final piece may be empty). -/
def splitNl : List Char → List (List Char)
  | [] => [[]]
  | '\n' :: rest => [] :: splitNl rest
  | c :: rest =>
    match splitNl rest with
    | [] => [[c]]
    | l :: ls => (c :: l) :: ls

/-- Strip one trailing `'\r'` (the `\r\n` line ending form). -/
def stripCrEnd (l : List Char) : List Char :=
  if l.getLast? = some '\r' then l.dropLast else l

/-- Rust `str::lines`: split at `'\n'`, drop the final empty piece produced by
a trailing newline, strip a trailing `'\r'` from each line. -/
def rustLines (s : List Char) : List (List Char) :=
  (if (splitNl s).getLast? = some [] then (splitNl s).dropLast
   else splitNl s).map stripCrEnd

/-- The `Edit` struct of `unified_diff_format.rs`. -/
structure Edit where
  before_path : Option (List Char)
  after_path : Option (List Char)
  hunk : List (List Char)
deriving DecidableEq, Repr

/-- The `LineType` enum. -/
inductive LineType where
  | Plus
  | Minus
  | Space
deriving DecidableEq, Repr

/-- The `DiffLine` struct. -/
structure DiffLine where
  line : List Char
  line_type : LineType
  file_line_num_idx : Option Nat
  correct_spaces_offset : Option Int
deriving DecidableEq, Repr

/-- The `DiffBlock` struct. -/
structure DiffBlock where
  file_name_before : List Char
  file_name_after : List Char
  action : String
  diff_lines : List DiffLine
  hunk_idx : Nat
  file_lines : List (List Char)
deriving DecidableEq, Repr

/-- The `DiffChunk` record emitted to callers, with the fields the
specification's data model lists (the struct itself lives in
`call_validation.rs`, outside the provided sources). -/
structure DiffChunk where
  file_name : List Char
  file_name_rename : Option (List Char)
  file_action : String
  line1 : Nat
  line2 : Nat
  lines_remove : List Char
  lines_add : List Char
deriving DecidableEq, Repr

/-- The mutable state of the `for line in block` loop of
`process_fenced_block`: current `--- `/`+++ ` paths, the hunk accumulated so
far (kept reversed: Rust pushes at the back), and the edits produced so far
(also reversed). -/
structure FencedState where
  before_path : Option (List Char)
  after_path : Option (List Char)
  hunkRev : List (List Char)
  editsRev : List Edit
deriving Repr

/-- The `op` half of the loop body (everything after the mid-block
`+++ `-header check): `-`/`+` and non-`@` lines just stay in the hunk;
an `@` line flushes the hunk (dropping the `@@` line itself) into an edit
when the hunk is nontrivial. -/
def fenced_op_step (arb : Bool) (st : FencedState) (line : List Char)
    (hr : List (List Char)) : FencedState :=
  let op := line.headD ' '
  if op = '-' ∨ op = '+' ∨ (arb ∧ op ≠ '@') then { st with hunkRev := hr }
  else if op ≠ '@' then { st with hunkRev := hr }
  else if hr.length ≤ 1 then { st with hunkRev := [] }
  else
    let e : Edit := ⟨st.before_path, st.after_path, (hr.drop 1).reverse⟩
    ⟨st.before_path, st.after_path, [], e :: st.editsRev⟩

/-- One iteration of the `for line in block` loop of
`process_fenced_block`: push the line; short lines (< 2 bytes) are kept
verbatim; a `+++ ` line directly preceded by a `--- ` line (with at least one
more line before them) closes the current hunk and switches to the new file
pair; otherwise dispatch on the first character. -/
def fenced_line_step (arb : Bool) (st : FencedState) (line : List Char) :
    FencedState :=
  let hr := line :: st.hunkRev
  if line.length < 2 then { st with hunkRev := hr }
  else
    match st.hunkRev with
    | prev :: rest2 =>
      if startsWithC plus_marker line ∧ rest2 ≠ [] ∧
          startsWithC dash_marker prev then
        let newHunkRev :=
          if rest2.head? = some nl_string then rest2.drop 1 else rest2
        let e : Edit := ⟨st.before_path, st.after_path, newHunkRev.reverse⟩
        ⟨some (trimC (prev.drop 4)), some (trimC (line.drop 4)), [],
          e :: st.editsRev⟩
      else fenced_op_step arb st line hr
    | [] => fenced_op_step arb st line hr

/-- The body of `process_fenced_block` once the leading `--- `/`+++ ` header
has (possibly) been stripped: `add_remove_rename_block` is computed once from
the initial paths, then the loop runs over the block (which already ends with
the appended `"@@ @@"`). -/
def process_fenced_body (bp ap : Option (List Char))
    (block : List (List Char)) : List Edit :=
  let arb := (match bp with | some x => startsWithC devnull x | none => false)
    || (match ap with | some x => startsWithC devnull x | none => false)
    || (match bp, ap with | some x, some y => x != y | _, _ => false)
  let final := block.foldl (fenced_line_step arb) ⟨bp, ap, [], []⟩
  final.editsRev.reverse

/-- `process_fenced_block` on the raw lines strictly between the opening
```` ```diff ```` line and the closing ```` ``` ```` line: append `"@@ @@"`,
strip a leading `--- `/`+++ ` pair into the paths, run the loop. -/
def process_fenced_block_lines (blockRaw : List (List Char)) : List Edit :=
  let block0 := blockRaw ++ [at_at_line]
  match block0 with
  | b0 :: b1 :: rest =>
    if startsWithC dash_marker b0 ∧ startsWithC plus_marker b1 then
      process_fenced_body (some (trimC (b0.drop 4))) (some (trimC (b1.drop 4)))
        rest
    else process_fenced_body none none block0
  | _ => process_fenced_body none none block0

/-- The scanning loop of `get_edit_hunks`, written with an explicit
inside/outside-a-fence mode (`none` = outside; `some accRev` = inside, lines
collected in reverse).  A block left open at the end of input is still
processed, exactly as the source's `process_fenced_block` runs to the end of
the line array. -/
def scan_fenced_blocks : Option (List (List Char)) → List (List Char) →
    List Edit
  | none, [] => []
  | none, l :: rest =>
    if startsWithC fence_diff_marker l then scan_fenced_blocks (some []) rest
    else scan_fenced_blocks none rest
  | some accRev, [] => process_fenced_block_lines accRev.reverse
  | some accRev, l :: rest =>
    if startsWithC fence_marker l then
      process_fenced_block_lines accRev.reverse ++ scan_fenced_blocks none rest
    else scan_fenced_blocks (some (l :: accRev)) rest

/-- `get_edit_hunks(content)`. -/
def get_edit_hunks (content : List Char) : List Edit :=
  scan_fenced_blocks none (rustLines content)

/-- Whether the `get_edit_hunks` scanner, started in mode `b`
(`true` = outside a fence), finishes outside a fence — i.e. every opened
```` ```diff ```` fence is closed by a ```` ``` ```` line. -/
def scan_ends_outside : Bool → List (List Char) → Bool
  | b, [] => b
  | true, l :: rest =>
    if startsWithC fence_diff_marker l then scan_ends_outside false rest
    else scan_ends_outside true rest
  | false, l :: rest =>
    if startsWithC fence_marker l then scan_ends_outside true rest
    else scan_ends_outside false rest

/-- The filesystem the parser reads through: path → file lines. -/
abbrev FileSys := List Char → Option (List (List Char))

/-- Error text of the missing-before-path branch (the source formats the
edit into the message; the embedding keeps the fixed prefix). -/
def err_before_name : List Char :=
  "cannot get a correct before file name from the diff chunk".toList

/-- Error text of the missing-after-path branch. -/
def err_after_name : List Char :=
  "cannot get a correct after file name from the diff chunk".toList

/-- Error text of a failed `read_file_from_disk` (the source appends the
OS error; the embedding keeps the prefix and the path). -/
def read_err_msg (p : List Char) : List Char :=
  "failed to read file ".toList ++ p

/-- The rename-destination-exists error of `edit_hunks_to_diff_blocks`:
`cannot rename {before:?}, destination file {after:?} name already exists`
(the embedding drops the Debug quotation marks around the paths). -/
def rename_err_msg (bp ap : List Char) : List Char :=
  "cannot rename ".toList ++ bp ++ ", destination file ".toList ++ ap ++
    " name already exists".toList

/-- `make_add_type_diff_block`. -/
def make_add_type_diff_block (idx : Nat) (bp ap : List Char) (e : Edit) :
    DiffBlock :=
  let dls := e.hunk.map (fun x =>
    (⟨if startsWithC ['+'] x then x.drop 1 else x, LineType.Plus,
      some 0, some 0⟩ : DiffLine))
  ⟨bp, ap, "add", dls, idx, []⟩

/-- `make_remove_type_diff_block`: no diff lines at all. -/
def make_remove_type_diff_block (idx : Nat) (bp ap : List Char) : DiffBlock :=
  ⟨bp, ap, "remove", [], idx, []⟩

/-- The state of the hunk-line grouping loop for an edit-type hunk. -/
structure EditBuildState where
  blocksRev : List DiffBlock
  curRev : List DiffLine
  block_has_minus_plus : Bool
deriving Repr

/-- One iteration of the grouping loop (`for line in edit.hunk.iter()`):
`-`/`+` lines join the current group; a context line first flushes the group
when it contained `-`/`+` lines, then is added (its single leading space is
stripped only when *every* hunk line has a leading space). -/
def edit_build_step (idx : Nat) (action : String) (bp ap : List Char)
    (file_lines : List (List Char)) (has_any : Bool)
    (st : EditBuildState) (line : List Char) : EditBuildState :=
  if startsWithC ['-'] line ∨ startsWithC ['+'] line then
    let is_plus := startsWithC ['+'] line
    let dl : DiffLine := ⟨line.drop 1,
      if is_plus then LineType.Plus else LineType.Minus, none, none⟩
    ⟨st.blocksRev, dl :: st.curRev, true⟩
  else
    let st2 : EditBuildState :=
      if st.block_has_minus_plus then
        let blk : DiffBlock :=
          ⟨bp, ap, action, st.curRev.reverse, idx, file_lines⟩
        ⟨blk :: st.blocksRev, [], false⟩
      else st
    let dl : DiffLine := ⟨(if !has_any && startsWithC [' '] line then
      line.drop 1 else line), LineType.Space, none, none⟩
    ⟨st2.blocksRev, dl :: st2.curRev, st2.block_has_minus_plus⟩

/-- Processing of one edit inside `edit_hunks_to_diff_blocks`: missing paths
error out; `/dev/null` before/after produce add/remove blocks; distinct paths
mean rename, which fails when the destination exists; otherwise the file is
read and the hunk is grouped into blocks. -/
def edit_to_diff_blocks (fs : FileSys) (idx : Nat) (e : Edit) :
    Except (List Char) (List DiffBlock) :=
  match e.before_path with
  | none => Except.error err_before_name
  | some bp =>
    match e.after_path with
    | none => Except.error err_after_name
    | some ap =>
      if bp = devnull then Except.ok [make_add_type_diff_block idx bp ap e]
      else if ap = devnull then
        Except.ok [make_remove_type_diff_block idx bp ap]
      else if bp ≠ ap ∧ (fs ap).isSome then
        Except.error (rename_err_msg bp ap)
      else
        let action := if bp ≠ ap then "rename" else "edit"
        match fs bp with
        | none => Except.error (read_err_msg bp)
        | some file_lines =>
          let has_any := e.hunk.any (fun x => !(startsWithC [' '] x))
          let final := e.hunk.foldl
            (edit_build_step idx action bp ap file_lines has_any)
            ⟨[], [], false⟩
          if final.curRev.isEmpty then Except.ok final.blocksRev.reverse
          else
            let blk : DiffBlock :=
              ⟨bp, ap, action, final.curRev.reverse, idx, file_lines⟩
            Except.ok (blk :: final.blocksRev).reverse

/-- The enumerated loop of `edit_hunks_to_diff_blocks` (`idx` is the edit's
position, stored as `hunk_idx`); the first error aborts. -/
def edit_hunks_go (fs : FileSys) : Nat → List Edit →
    Except (List Char) (List DiffBlock)
  | _, [] => Except.ok []
  | idx, e :: rest =>
    match edit_to_diff_blocks fs idx e with
    | Except.error msg => Except.error msg
    | Except.ok bs =>
      match edit_hunks_go fs (idx + 1) rest with
      | Except.error msg => Except.error msg
      | Except.ok more => Except.ok (bs ++ more)

/-- `edit_hunks_to_diff_blocks`. -/
def edit_hunks_to_diff_blocks (fs : FileSys) (edits : List Edit) :
    Except (List Char) (List DiffBlock) :=
  edit_hunks_go fs 0 edits

/-- The inner file scan of `search_diff_block_text_location`
(`for file_line_idx in file_line_start_offset..=file_lines.len()-size`):
left-trimmed spans are compared; empty/blank spans are only accepted at the
very first position.  `fuel` counts the remaining candidate positions. -/
def searchFileIdxGo (fileLines diffTr : List (List Char))
    (size fileStart : Nat) : Nat → Nat → Option Nat
  | _, 0 => none
  | idx, fuel + 1 =>
    let fsSpan := ((fileLines.drop idx).take size).map trimStartC
    if idx > fileStart ∧ (fsSpan = [] ∨ diffTr.all (fun l => l.isEmpty)) then
      searchFileIdxGo fileLines diffTr size fileStart (idx + 1) fuel
    else if fsSpan = diffTr then some idx
    else searchFileIdxGo fileLines diffTr size fileStart (idx + 1) fuel

/-- The span-size scan
(`for diff_line_span_size in (1..=len-offset).rev()`): spans containing `+`
lines, or at least as long as the file, are skipped; the largest located span
wins, returning (size, file index). -/
def try_spans (fileLines : List (List Char)) (diffLines : List DiffLine)
    (off fileStart : Nat) : Nat → Option (Nat × Nat)
  | 0 => none
  | sz + 1 =>
    let size := sz + 1
    let span := (diffLines.drop off).take size
    let diffTr := span.map (fun dl => trimStartC dl.line)
    if span.any (fun dl => dl.line_type == LineType.Plus) ∨
        fileLines.length ≤ size then
      try_spans fileLines diffLines off fileStart sz
    else
      match searchFileIdxGo fileLines diffTr size fileStart fileStart
          ((fileLines.length - size) + 1 - fileStart) with
      | some idx => some (size, idx)
      | none => try_spans fileLines diffLines off fileStart sz

/-- Write the located file index and the
`file_lead_spaces − diff_lead_spaces` offset into a matched span. -/
def apply_span (fileLines : List (List Char)) (diffLines : List DiffLine)
    (off size fileIdx : Nat) : List DiffLine :=
  let seg := (diffLines.drop off).take size
  let seg2 := ((List.range size).zip seg).map (fun pr =>
    let fident : Int := leadSpacesC (fileLines.getD (fileIdx + pr.1) [])
    let dident : Int := leadSpacesC pr.2.line
    (⟨pr.2.line, pr.2.line_type, some (fileIdx + pr.1),
      some (fident - dident)⟩ : DiffLine))
  diffLines.take off ++ seg2 ++ diffLines.drop (off + size)

/-- The `while diff_line_start_offset <= diff_lines.len()` loop for one
block: locate the longest span at the current offset; on success jump past
it (and advance the file cursor), otherwise move one diff line forward.
The loop advances the offset by at least one per iteration, so
`diff_lines.length + 2` fuel always suffices. -/
def locate_block_go (fileLines : List (List Char)) :
    Nat → Nat → List DiffLine → Nat → (List DiffLine × Nat)
  | 0, _, dls, fileStart => (dls, fileStart)
  | fuel + 1, off, dls, fileStart =>
    if dls.length < off then (dls, fileStart)
    else
      match try_spans fileLines dls off fileStart (dls.length - off) with
      | some pr =>
        let dls2 := apply_span fileLines dls off pr.1 pr.2
        locate_block_go fileLines fuel (off + pr.1) dls2 (pr.2 + pr.1)
      | none => locate_block_go fileLines fuel (off + 1) dls fileStart

/-- Process the blocks of one `hunk_idx` group in order, threading
`file_line_start_offset` (which starts at 0 per group). -/
def process_block_group : List DiffBlock → Nat → List DiffBlock
  | [], _ => []
  | b :: rest, fileStart =>
    let r := locate_block_go b.file_lines (b.diff_lines.length + 2) 0
      b.diff_lines fileStart
    { b with diff_lines := r.1 } :: process_block_group rest r.2

/-- Write the processed group back over the positions occupied by blocks of
`hunk_idx = i` (the source mutates those blocks in place through
`iter_mut().filter(...)`). -/
def subst_group (i : Nat) : List DiffBlock → List DiffBlock → List DiffBlock
  | _, [] => []
  | news, b :: rest =>
    if b.hunk_idx = i then
      match news with
      | n :: ns => n :: subst_group i ns rest
      | [] => b :: subst_group i [] rest
    else b :: subst_group i news rest

/-- One step of the `for i in 0..diff_blocks.len()` loop of
`search_diff_block_text_location`: skip when the group is empty, otherwise
locate the group and write it back. -/
def search_step (bs : List DiffBlock) (i : Nat) : List DiffBlock :=
  let group := bs.filter (fun b => b.hunk_idx == i)
  if group.isEmpty then bs
  else subst_group i (process_block_group group 0) bs

/-- `search_diff_block_text_location`. -/
def search_diff_block_text_location (blocks : List DiffBlock) :
    List DiffBlock :=
  (List.range blocks.length).foldl search_step blocks

/-- The three outcomes of the `diff` crate's line diff. -/
inductive DiffRes where
  | left (l : List Char)
  | right (r : List Char)
  | both (l : List Char)
deriving DecidableEq, Repr

/-- Number of `both` entries (matched lines) in a diff. -/
def diffres_both_count : List DiffRes → Nat
  | [] => 0
  | DiffRes.both _ :: rest => diffres_both_count rest + 1
  | _ :: rest => diffres_both_count rest

/-- Modelled from the spec: `diff::lines` of the external `diff` crate — a
standard LCS line diff of the original region against the rewritten region
("diff the original region against the span with a standard line-diff
algorithm").  Only its determinism and its output alphabet matter for the
theorems below. -/
def line_diff : List (List Char) → List (List Char) → List DiffRes
  | [], ys => ys.map DiffRes.right
  | x :: xs, [] => (x :: xs).map DiffRes.left
  | x :: xs, y :: ys =>
    if x = y then DiffRes.both x :: line_diff xs ys
    else
      let a := DiffRes.left x :: line_diff xs (y :: ys)
      let b := DiffRes.right y :: line_diff (x :: xs) ys
      if diffres_both_count b ≤ diffres_both_count a then a else b
termination_by xs ys => xs.length + ys.length
decreasing_by all_goals simp_arith

/-- The block-splitting fold of the all-context auto-diff branch of
`splitting_diff_blocks`: `Left` becomes a `-` line, `Right` a `+` line, and
a matched line flushes the collected lines into an exported block. -/
def split_space_go (b : DiffBlock) :
    Nat → List DiffLine → List DiffRes → List DiffBlock
  | _, curRev, [] =>
    if curRev.isEmpty then [] else [{ b with diff_lines := curRev.reverse }]
  | ln, curRev, DiffRes.left l :: rest =>
    split_space_go b (ln + 1)
      ((⟨l, LineType.Minus, some ln, some 0⟩ : DiffLine) :: curRev) rest
  | ln, curRev, DiffRes.right r :: rest =>
    split_space_go b ln
      ((⟨r, LineType.Plus, some ln, some 0⟩ : DiffLine) :: curRev) rest
  | ln, curRev, DiffRes.both _ :: rest =>
    if curRev.isEmpty then split_space_go b (ln + 1) [] rest
    else { b with diff_lines := curRev.reverse } ::
      split_space_go b (ln + 1) [] rest

/-- One `group_by(hunk_idx)` group of `splitting_diff_blocks`: a single
edit-action block whose lines are all context is re-diffed against the file;
everything else passes through unchanged. -/
def process_run (run : List DiffBlock) : List DiffBlock :=
  match run with
  | [b] =>
    if b.action = "edit" then
      if b.diff_lines.all (fun x => x.line_type == LineType.Space) then
        split_space_go b 0 []
          (line_diff b.file_lines (b.diff_lines.map (fun x => x.line)))
      else [b]
    else [b]
  | other => other

/-- itertools `group_by(hunk_idx)`: maximal runs of consecutive equal keys,
each passed through `process_run` (state: current key and collected run,
reversed). -/
def split_blocks_go : Option (Nat × List DiffBlock) → List DiffBlock →
    List DiffBlock
  | none, [] => []
  | none, b :: rest => split_blocks_go (some (b.hunk_idx, [b])) rest
  | some st, [] => process_run st.2.reverse
  | some st, b :: rest =>
    if b.hunk_idx = st.1 then split_blocks_go (some (st.1, b :: st.2)) rest
    else process_run st.2.reverse ++
      split_blocks_go (some (b.hunk_idx, [b])) rest

/-- `splitting_diff_blocks`. -/
def splitting_diff_blocks (blocks : List DiffBlock) : List DiffBlock :=
  split_blocks_go none blocks

/-- Step 1 of `normalize_diff_block`: apply `correct_spaces_offset`
(positive → prepend spaces, negative → drop leading characters). -/
def nd_step1 (dl : DiffLine) : DiffLine :=
  match dl.correct_spaces_offset with
  | some off =>
    if off > 0 then { dl with line := List.replicate off.toNat ' ' ++ dl.line }
    else if off < 0 then { dl with line := dl.line.drop off.natAbs }
    else dl
  | none => dl

/-- Step 2 first half: a leading unlocated `+` line is pinned to index 0. -/
def nd_step2 (dls : List DiffLine) : List DiffLine :=
  match dls with
  | [] => []
  | l0 :: rest =>
    (if l0.line_type = LineType.Plus ∧ l0.file_line_num_idx = none then
      { l0 with file_line_num_idx := some 0 }
     else l0) :: rest

/-- Step 4: an already-located context line equal to the nearest following
`+` line is relabelled `-` (the loop reads from an unmodified copy, so the
relabelling does not cascade). -/
def nd_step4 (dls : List DiffLine) : List DiffLine :=
  dls.mapIdx (fun idx dl =>
    if dl.line_type = LineType.Space ∧ dl.file_line_num_idx.isSome ∧
        idx < dls.length - 1 then
      match (dls.drop (idx + 1)).find?
          (fun x => x.line_type == LineType.Plus) with
      | some item =>
        if dl.line = item.line then { dl with line_type := LineType.Minus }
        else dl
      | none => dl
    else dl)

/-- Step 5: forward-fill missing file indexes with (last located index)+1. -/
def nd_step5 : Option Nat → List DiffLine → List DiffLine
  | _, [] => []
  | last, dl :: rest =>
    match dl.file_line_num_idx with
    | some i => dl :: nd_step5 (some (i + 1)) rest
    | none => { dl with file_line_num_idx := last } :: nd_step5 last rest

/-- The display character of a line type. -/
def line_type_char : LineType → Char
  | LineType.Plus => '+'
  | LineType.Minus => '-'
  | LineType.Space => ' '

/-- The validation error of `normalize_diff_block` (fixed prefix plus the
offending lines). -/
def not_found_err_msg (lines : List (List Char)) : List Char :=
  "blocks of code signed with - were not found in a file ".toList ++
    (lines.map (fun l => l ++ ['\n'])).flatten

/-- `normalize_diff_block`. -/
def normalize_diff_block (b : DiffBlock) : Except (List Char) DiffBlock :=
  if b.diff_lines.isEmpty then Except.ok b
  else
    let dls1 := b.diff_lines.map nd_step1
    let dls2 := nd_step2 dls1
    let dls3 := dls2.dropWhile (fun x =>
      x.line_type == LineType.Space && x.file_line_num_idx.isNone)
    let dls4 := nd_step4 dls3
    let dls5 := nd_step5 none dls4
    let nonFound := dls5.filter (fun x =>
      x.line_type != LineType.Space && x.file_line_num_idx.isNone)
    if nonFound.isEmpty then Except.ok { b with diff_lines := dls5 }
    else
      Except.error (not_found_err_msg
        (nonFound.map (fun x => line_type_char x.line_type :: x.line)))

/-- The `for block in diff_blocks.iter_mut()` normalisation loop of
`parse_message`: the first error aborts. -/
def normalize_all : List DiffBlock → Except (List Char) (List DiffBlock)
  | [] => Except.ok []
  | b :: rest =>
    match normalize_diff_block b with
    | Except.error msg => Except.error msg
    | Except.ok b2 =>
      match normalize_all rest with
      | Except.error msg => Except.error msg
      | Except.ok rest2 => Except.ok (b2 :: rest2)

/-- One block's contribution in `diff_blocks_to_diff_chunks`: non-context
lines drive everything; a block whose joined `-` lines equal its joined `+`
lines is dropped; `line1`/`line2` as in the source (`idx+1` for `+`,
`idx+2` for `-` in `line2`).  The source `.expect(...)` on a missing index is
modelled by `getD 0` (normalisation guarantees the index is present). -/
def diff_chunk_of_block (block : DiffBlock) : Option DiffChunk :=
  let useful := block.diff_lines.filter
    (fun x => x.line_type != LineType.Space)
  let fn_pair : List Char × Option (List Char) :=
    if block.action = "add" then (block.file_name_after, none)
    else if block.action = "remove" then (block.file_name_before, none)
    else if block.action = "rename" then
      (block.file_name_before, some block.file_name_after)
    else (block.file_name_before, none)
  let lines_remove :=
    ((useful.filter (fun x => x.line_type == LineType.Minus)).map
      (fun x => x.line ++ ['\n'])).flatten
  let lines_add :=
    ((useful.filter (fun x => x.line_type == LineType.Plus)).map
      (fun x => x.line ++ ['\n'])).flatten
  let l1 := ((useful.map (fun x => x.file_line_num_idx.getD 0 + 1)).min?).getD 1
  let l2 := ((useful.map (fun x =>
      if x.line_type == LineType.Plus then x.file_line_num_idx.getD 0 + 1
      else x.file_line_num_idx.getD 0 + 2)).max?).getD 1
  if lines_remove = lines_add then none
  else some ⟨fn_pair.1, fn_pair.2, block.action, l1, l2, lines_remove,
    lines_add⟩

/-- `diff_blocks_to_diff_chunks`. -/
def diff_blocks_to_diff_chunks (blocks : List DiffBlock) : List DiffChunk :=
  blocks.filterMap diff_chunk_of_block

/-- itertools `.unique()`: keep the first occurrence of each chunk. -/
def unique_keep_first_go (seen : List DiffChunk) : List DiffChunk →
    List DiffChunk
  | [] => []
  | c :: rest =>
    if seen.contains c then unique_keep_first_go seen rest
    else c :: unique_keep_first_go (c :: seen) rest

/-- `.unique()` over the chunk list. -/
def unique_keep_first (l : List DiffChunk) : List DiffChunk :=
  unique_keep_first_go [] l

/-- The `filtered_blocks` step of `parse_message`: edit blocks must contain a
`+` or `-` line. -/
def keep_edit_blocks_with_changes (blocks : List DiffBlock) :
    List DiffBlock :=
  blocks.filter (fun x =>
    if x.action = "edit" then
      x.diff_lines.any (fun l =>
        l.line_type == LineType.Plus || l.line_type == LineType.Minus)
    else true)

/-- `UnifiedDiffFormat::parse_message`. -/
def parse_message (fs : FileSys) (content : List Char) :
    Except (List Char) (List DiffChunk) :=
  match edit_hunks_to_diff_blocks fs (get_edit_hunks content) with
  | Except.error msg => Except.error msg
  | Except.ok blocks0 =>
    match normalize_all (splitting_diff_blocks
        (search_diff_block_text_location blocks0)) with
    | Except.error msg => Except.error msg
    | Except.ok blocks3 =>
      Except.ok (unique_keep_first
        (diff_blocks_to_diff_chunks (keep_edit_blocks_with_changes blocks3)))


/-- Shift a block's `hunk_idx` by `k` (the enumeration offset a block gets
when its edit sits after `k` earlier edits). -/
def shiftB (k : Nat) (b : DiffBlock) : DiffBlock :=
  { b with hunk_idx := b.hunk_idx + k }

/-- The file paths a parsed hunk mentions in its `--- `/`+++ ` headers. -/
def edit_paths (e : Edit) : List (List Char) :=
  e.before_path.toList ++ e.after_path.toList

/-- All header paths of a list of parsed hunks. -/
def edits_paths (es : List Edit) : List (List Char) :=
  (es.map edit_paths).flatten

/-- Everything of a block except its `diff_lines` (the location pass rewrites
only the diff lines, never this shell). -/
def blockShell (b : DiffBlock) :
    List Char × List Char × String × Nat × List (List Char) :=
  (b.file_name_before, b.file_name_after, b.action, b.hunk_idx, b.file_lines)

/-! ## Theorems -/

/-- Helper: the search loop with a fixed nonzero `dist0` is a filter with the
usefulness formula anchored at that `dist0`. -/
theorem vecdb_search_loop_of_ne_zero (d0 : ℚ) (h0 : d0 ≠ 0)
    (rs : List VecdbRecord) :
    vecdb_search_loop d0 rs =
      rs.filterMap (fun r =>
        if VECDB_DISTANCE_REJECT_COMPLETELY ≤ |r.distance| then none
        else some { r with usefulness := usefulness_spec d0 r.distance }) := by
  induction rs with
  | nil => simp [vecdb_search_loop]
  | cons r rest ih =>
    simp only [vecdb_search_loop, if_neg h0, List.filterMap_cons]
    by_cases h : VECDB_DISTANCE_REJECT_COMPLETELY ≤ |r.distance|
    · simp only [if_pos h, ih]
    · simp only [if_neg h, ih]

/-- Helper: distances of surviving records, for any `dist0` seed. -/
theorem vecdb_search_loop_distances (d0 : ℚ) (rs : List VecdbRecord) :
    (vecdb_search_loop d0 rs).map (fun r => r.distance) =
      (rs.map (fun r => r.distance)).filter
        (fun d => |d| < VECDB_DISTANCE_REJECT_COMPLETELY) := by
  induction rs generalizing d0 with
  | nil => simp [vecdb_search_loop]
  | cons r rest ih =>
    simp only [vecdb_search_loop, List.map_cons, List.filter_cons]
    by_cases h : VECDB_DISTANCE_REJECT_COMPLETELY ≤ |r.distance|
    · rw [if_pos h]
      have h2 : ¬ |r.distance| < VECDB_DISTANCE_REJECT_COMPLETELY := not_lt.mpr h
      simp [h2, ih]
    · rw [if_neg h]
      have h2 : |r.distance| < VECDB_DISTANCE_REJECT_COMPLETELY := lt_of_not_le h
      simp [h2, ih]

/-- C5: every record returned by `vecdb_search` has `|distance| < 0.25`, and
the returned distances are exactly the input distances below the hard-reject
threshold (records at or above it are dropped). -/
theorem c5_vecdb_hard_reject (results : List VecdbRecord) :
    (∀ r ∈ vecdb_search_filtered results,
        |r.distance| < VECDB_DISTANCE_REJECT_COMPLETELY) ∧
    (vecdb_search_filtered results).map (fun r => r.distance) =
      (results.map (fun r => r.distance)).filter
        (fun d => |d| < VECDB_DISTANCE_REJECT_COMPLETELY) := by
  constructor
  · intro r hr
    have hmem : r.distance ∈ (vecdb_search_filtered results).map
        (fun r => r.distance) := List.mem_map_of_mem _ hr
    rw [vecdb_search_filtered, vecdb_search_loop_distances] at hmem
    exact of_decide_eq_true (List.mem_filter.mp hmem).2
  · exact vecdb_search_loop_distances 0 results

/-- C4 (counterexample): for the batch with distances `[0, 1/200]` the claim's
formula — with `d0` the smallest absolute distance of the whole batch, here
`0` — predicts usefulness `100 − 75·clamp((1/200)/(0+0.01),0,1) = 62.5` for
the second record, but the code assigns `100` to both records (its `dist0`
skips the zero distance and latches onto `1/200`). -/
theorem c4_counterexample :
    (vecdb_search_filtered
        [⟨"a", 0, 0, 0, 0⟩, ⟨"b", 0, 0, 1 / 200, 0⟩]).map
        (fun r => r.usefulness) = [100, 100] ∧
    usefulness_spec 0 (1 / 200) = 125 / 2 ∧
    (100 : ℚ) ≠ 125 / 2 := by
  refine ⟨?_, ?_, by norm_num⟩
  · simp only [vecdb_search_filtered, vecdb_search_loop, usefulness_spec,
      VECDB_DISTANCE_REJECT_COMPLETELY]
    norm_num [abs_of_nonneg, min_def, max_def]
  · simp only [usefulness_spec]
    norm_num [abs_of_nonneg, min_def, max_def]

/-- C4 (amended): when the candidate batch is ordered by nondecreasing
absolute distance and the best absolute distance is nonzero, every returned
record's usefulness equals the clamped formula anchored at `d0 = ` the
smallest absolute distance in the batch (the head's), every returned
usefulness lies in `[25, 100]`, and — provided the best record clears the
hard-reject threshold — the best-distance record is returned with usefulness
`100`. -/
theorem c4_amended (b0 : VecdbRecord) (rest : List VecdbRecord)
    (hsorted : (b0 :: rest).Chain' (fun a b => |a.distance| ≤ |b.distance|))
    (h0 : |b0.distance| ≠ 0) :
    (∀ r ∈ (b0 :: rest), |b0.distance| ≤ |r.distance|) ∧
    (∀ r ∈ vecdb_search_filtered (b0 :: rest),
        r.usefulness = usefulness_spec |b0.distance| r.distance ∧
        25 ≤ r.usefulness ∧ r.usefulness ≤ 100) ∧
    (|b0.distance| < VECDB_DISTANCE_REJECT_COMPLETELY →
      ∃ r ∈ vecdb_search_filtered (b0 :: rest),
        r.distance = b0.distance ∧ r.usefulness = 100) := by
  have hda : (0 : ℚ) < |b0.distance| + 1 / 100 := by
    have h1 : (0 : ℚ) ≤ |b0.distance| := abs_nonneg _
    have h2 : (0 : ℚ) < 1 / 100 := by norm_num
    linarith
  have key : vecdb_search_filtered (b0 :: rest) =
      (b0 :: rest).filterMap (fun r =>
        if VECDB_DISTANCE_REJECT_COMPLETELY ≤ |r.distance| then none
        else some { r with
          usefulness := usefulness_spec |b0.distance| r.distance }) := by
    show vecdb_search_loop 0 (b0 :: rest) = _
    simp only [vecdb_search_loop, eq_self_iff_true, if_true,
      List.filterMap_cons]
    by_cases h : VECDB_DISTANCE_REJECT_COMPLETELY ≤ |b0.distance|
    · simp only [if_pos h, vecdb_search_loop_of_ne_zero _ h0 rest]
    · simp only [if_neg h, vecdb_search_loop_of_ne_zero _ h0 rest]
  have uself : usefulness_spec |b0.distance| b0.distance = 100 := by
    unfold usefulness_spec
    rw [sub_self, zero_div]
    norm_num
  have hbound : ∀ d : ℚ,
      25 ≤ usefulness_spec |b0.distance| d ∧
      usefulness_spec |b0.distance| d ≤ 100 := by
    intro d
    unfold usefulness_spec
    constructor
    · have h1 : min (max ((|d| - |b0.distance|) / (|b0.distance| + 1 / 100)) 0) 1
          ≤ 1 := min_le_right _ _
      linarith
    · have h2 : (0 : ℚ) ≤
          min (max ((|d| - |b0.distance|) / (|b0.distance| + 1 / 100)) 0) 1 :=
        le_min (le_max_right _ _) zero_le_one
      linarith
  refine ⟨?_, ?_, ?_⟩
  · intro r hr
    rcases List.mem_cons.mp hr with h | h
    · rw [h]
    · haveI : IsTrans VecdbRecord (fun a b => |a.distance| ≤ |b.distance|) :=
        ⟨fun _ _ _ hab hbc => le_trans hab hbc⟩
      exact List.rel_of_pairwise_cons (List.chain'_iff_pairwise.mp hsorted) h
  · intro r hr
    rw [key] at hr
    rcases List.mem_filterMap.mp hr with ⟨s, _, hs⟩
    by_cases h : VECDB_DISTANCE_REJECT_COMPLETELY ≤ |s.distance|
    · rw [if_pos h] at hs; exact absurd hs (by simp)
    · rw [if_neg h] at hs
      have hr2 := Option.some.inj hs
      refine ⟨by rw [← hr2], by rw [← hr2]; exact (hbound _).1,
        by rw [← hr2]; exact (hbound _).2⟩
  · intro hlt
    refine ⟨{ b0 with usefulness := usefulness_spec |b0.distance| b0.distance },
      ?_, rfl, uself⟩
    rw [key]
    have h2 : ¬ VECDB_DISTANCE_REJECT_COMPLETELY ≤ |b0.distance| :=
      not_le.mpr hlt
    exact List.mem_filterMap.mpr
      ⟨b0, List.mem_cons_self _ _, by rw [if_neg h2]⟩

/-- Witness for `c4_amended` at the spec's scenario-6 distances
`0.10, 0.18`: hypotheses discharged at a concrete batch. -/
theorem c4_amended_witness :
    ((⟨"a", 0, 0, 1 / 10, 0⟩ : VecdbRecord) ::
        [⟨"b", 0, 0, 18 / 100, 0⟩]).Chain'
      (fun a b => |a.distance| ≤ |b.distance|) ∧
    |(⟨"a", 0, 0, 1 / 10, 0⟩ : VecdbRecord).distance| ≠ 0 ∧
    (∀ r ∈ vecdb_search_filtered
        [⟨"a", 0, 0, 1 / 10, 0⟩, ⟨"b", 0, 0, 18 / 100, 0⟩],
        r.usefulness =
          usefulness_spec |(⟨"a", 0, 0, 1 / 10, 0⟩ : VecdbRecord).distance|
            r.distance ∧
        25 ≤ r.usefulness ∧ r.usefulness ≤ 100) :=
  ⟨by simp [List.chain'_cons, List.chain'_singleton]
      norm_num [abs_of_nonneg],
   by norm_num,
   (c4_amended ⟨"a", 0, 0, 1 / 10, 0⟩ [⟨"b", 0, 0, 18 / 100, 0⟩]
      (by simp [List.chain'_cons, List.chain'_singleton]
          norm_num [abs_of_nonneg])
      (by norm_num)).2.1⟩

/-- Helper: `orderedInsert` with the `memories_search` comparator commutes
with rewriting `mstat_times_used`, because `calculate_score` ignores that
field. -/
theorem orderedInsert_with_times_used (g : MemoRecord → Int) (a : MemoRecord)
    (l : List MemoRecord) :
    List.orderedInsert
      (fun x y : MemoRecord => calculate_score x.distance x.mstat_times_used ≤
        calculate_score y.distance y.mstat_times_used)
      (with_times_used g a) (l.map (with_times_used g)) =
    (List.orderedInsert
      (fun x y : MemoRecord => calculate_score x.distance x.mstat_times_used ≤
        calculate_score y.distance y.mstat_times_used)
      a l).map (with_times_used g) := by
  induction l with
  | nil => rfl
  | cons b l ih =>
    show List.orderedInsert _ _ (with_times_used g b :: l.map (with_times_used g)) = _
    by_cases h : a.distance ≤ b.distance
    · simp only [List.orderedInsert, calculate_score, with_times_used, h,
        if_pos, List.map_cons]
    · simp only [List.orderedInsert, calculate_score, with_times_used] at ih ⊢
      rw [if_neg h, if_neg h, List.map_cons]
      rw [ih]
      rfl

/-- C9: `memories_search` returns its records sorted by raw distance
ascending (the sorted output is a permutation of the fetched records), and
the `mstat_times_used` statistic has no influence on the ranking: rewriting
it arbitrarily commutes with the sort. -/
theorem c9_memories_search_ranking (results : List MemoRecord) :
    (memories_search_sort results).Sorted (fun a b => a.distance ≤ b.distance) ∧
    (memories_search_sort results).Perm results ∧
    ∀ g : MemoRecord → Int,
      memories_search_sort (results.map (with_times_used g)) =
        (memories_search_sort results).map (with_times_used g) := by
  refine ⟨?_, List.perm_insertionSort _ _, ?_⟩
  · haveI ht : IsTotal MemoRecord (fun a b => a.distance ≤ b.distance) :=
      ⟨fun x y => le_total x.distance y.distance⟩
    haveI htr : IsTrans MemoRecord (fun a b => a.distance ≤ b.distance) :=
      ⟨fun _ _ _ hab hbc => le_trans hab hbc⟩
    exact List.sorted_insertionSort (fun a b => a.distance ≤ b.distance) results
  · intro g
    induction results with
    | nil => rfl
    | cons a l ih =>
      show List.orderedInsert _ (with_times_used g a)
          (memories_search_sort (l.map (with_times_used g))) = _
      rw [ih]
      exact orderedInsert_with_times_used g a (memories_search_sort l)

/-- C10: the status returned by `get_status` never reports `state = "done"`
together with `queue_additions = true`: when the internal state is `"done"`
with queued additions, the returned copy reports `"parsing"` (and the
internal state value itself is not modified — the code mutates only a
clone, reflected here by `get_status_copy` being a pure function of the
internal status). -/
theorem c10_get_status_done_masked (internal : VecDbStatus)
    (db_size db_cache_size : Nat) :
    (¬((get_status_copy internal db_size db_cache_size).state = "done" ∧
       (get_status_copy internal db_size db_cache_size).queue_additions = true)) ∧
    (get_status_copy internal db_size db_cache_size).state =
      (if internal.state = "done" ∧ internal.queue_additions = true then "parsing"
       else internal.state) ∧
    (get_status_copy internal db_size db_cache_size).queue_additions =
      internal.queue_additions := by
  by_cases h : internal.state = "done" ∧ internal.queue_additions = true
  · refine ⟨?_, ?_, ?_⟩ <;> simp [get_status_copy, h.1, h.2]
  · have hc : ¬(internal.state = "done" ∧ internal.queue_additions) := by
      intro hcon
      exact h ⟨hcon.1, hcon.2⟩
    refine ⟨?_, ?_, ?_⟩ <;> simp only [get_status_copy, if_neg hc, if_neg h]
    · intro hcon
      exact h ⟨hcon.1, hcon.2⟩

/-- Helper: looking up the key just prepended. -/
theorem lookup_cons_self {β : Type} (k : String) (v : β)
    (l : List (String × β)) : ((k, v) :: l).lookup k = some v := by
  rw [List.lookup_cons]
  simp

/-- Helper: a prepended pair with a different key does not affect lookup. -/
theorem lookup_cons_ne {β : Type} (a k : String) (v : β)
    (l : List (String × β)) (h : a ≠ k) :
    ((k, v) :: l).lookup a = l.lookup a := by
  rw [List.lookup_cons]
  have hb : (a == k) = false := beq_eq_false_iff_ne.mpr h
  rw [hb]

/-- Helper: overwriting the entry for `path` in the document map makes the
lookup return the new text, provided an entry existed. -/
theorem lookup_map_overwrite (m : List (String × String)) (path text : String)
    (h : (m.lookup path).isSome) :
    (m.map (fun kv => if kv.1 = path then (path, text) else kv)).lookup path =
      some text := by
  induction m with
  | nil => simp at h
  | cons kv m ih =>
    obtain ⟨k, v⟩ := kv
    by_cases hk : k = path
    · have hhead : (if (k, v).1 = path then (path, text) else (k, v)) =
          (path, text) := if_pos hk
      rw [List.map_cons, hhead, lookup_cons_self]
    · have hhead : (if (k, v).1 = path then (path, text) else (k, v)) =
          (k, v) := if_neg hk
      rw [List.map_cons, hhead, lookup_cons_ne path k v _ (fun hc => hk hc.symm)]
      rw [lookup_cons_ne path k v _ (fun hc => hk hc.symm)] at h
      exact ih h

/-- C3 (counterexample): when a memory document for the path already exists
and `cache_dirty` is `false`, `on_did_open` overwrites the text but leaves
`cache_dirty = false` — the claim's unconditional "set dirty" fails. -/
theorem c3_counterexample :
    (on_did_open ⟨[("p.py", "old")], false⟩ "p.py" "new" "python").cache_dirty
      = false ∧
    (on_did_open ⟨[("p.py", "old")], false⟩ "p.py" "new"
        "python").memory_document_map.lookup "p.py" = some "new" := by
  constructor <;> rfl

/-- C3 (amended): after `on_did_open(path, text, lang)` the memory document
for `path` holds `text`; `cache_dirty` becomes `true` when the document was
newly created and keeps its previous value when a document for that path
already existed. -/
theorem c3_amended (st : DocumentsState) (path text lang : String) :
    (on_did_open st path text lang).memory_document_map.lookup path =
      some text ∧
    (on_did_open st path text lang).cache_dirty =
      (if (st.memory_document_map.lookup path).isSome then st.cache_dirty
       else true) := by
  by_cases h : (st.memory_document_map.lookup path).isSome
  · constructor
    · simp only [on_did_open, overwrite_or_create_document, if_pos h]
      simp only [Bool.false_eq_true, if_false]
      exact lookup_map_overwrite st.memory_document_map path text h
    · simp only [on_did_open, overwrite_or_create_document, if_pos h]
      simp [h]
  · constructor
    · simp only [on_did_open, overwrite_or_create_document, if_neg h]
      simp only [if_true]
      exact lookup_cons_self path text st.memory_document_map
    · simp only [on_did_open, overwrite_or_create_document, if_neg h]
      simp [h]

/-- Helper: length evolution of the push-then-prune loop.  One iteration
takes a vector of length `n` to length `n` (when `top_n ≤ n+1`: sort and pop)
or `n+1`. -/
theorem fuzzy_loop_length_aux (sim : String → ℚ) (top_n : Nat)
    (l : List String) :
    ∀ acc : List (String × ℚ), acc.length ≤ top_n - 1 →
      (l.foldl (fuzzy_top_n_step sim top_n) acc).length =
        min (acc.length + l.length) (top_n - 1) := by
  induction l with
  | nil =>
    intro acc hacc
    simp only [List.foldl_nil, List.length_nil, Nat.add_zero]
    omega
  | cons p l ih =>
    intro acc hacc
    rw [List.foldl_cons]
    by_cases hT : top_n ≤ acc.length + 1
    · have hstep : (fuzzy_top_n_step sim top_n acc p).length = acc.length := by
        unfold fuzzy_top_n_step
        have hlen : (acc ++ [(p, sim p)]).length = acc.length + 1 := by simp
        rw [if_pos (by rw [hlen]; exact hT)]
        rw [List.length_dropLast, List.length_insertionSort, hlen]
        omega
      have := ih (fuzzy_top_n_step sim top_n acc p) (by omega)
      rw [hstep] at this
      rw [this]
      simp only [List.length_cons]
      omega
    · have hstep : (fuzzy_top_n_step sim top_n acc p).length = acc.length + 1 := by
        unfold fuzzy_top_n_step
        have hlen : (acc ++ [(p, sim p)]).length = acc.length + 1 := by simp
        rw [if_neg (by rw [hlen]; exact hT)]
        exact hlen
      have := ih (fuzzy_top_n_step sim top_n acc p) (by omega)
      rw [hstep] at this
      rw [this]
      simp only [List.length_cons]
      omega

/-- C2: the fuzzy branch of `correct_to_nearest_filename` keeps only
`top_n − 1` filenames once the cache has at least `top_n` entries (the loop
pushes, then prunes as soon as the vector has *reached* `top_n`), so the
call of the specification's scenario 1 — workspace
`{/a/b/c/frog.py, /a/b/d/toad.py}`, query `"frog"`, `fuzzy = true`,
`top_n = 2` — returns the single path `/a/b/c/frog.py` instead of the two
promised paths. -/
theorem c2_fuzzy_keeps_top_n_minus_one :
    (∀ (sim : String → ℚ) (top_n : Nat) (cache_fuzzy : List String),
        (fuzzy_top_n_loop sim top_n cache_fuzzy).length =
          min cache_fuzzy.length (top_n - 1)) ∧
    correct_to_nearest_filename frog_cache_correction frog_cache_fuzzy
      (fun _ p => frog_sim p) "frog" true 2 = ["/a/b/c/frog.py"] := by
  constructor
  · intro sim top_n cache_fuzzy
    have h := fuzzy_loop_length_aux sim top_n cache_fuzzy [] (by simp)
    simpa [fuzzy_top_n_loop] using h
  · simp [correct_to_nearest_filename, frog_cache_correction,
      frog_cache_fuzzy, frog_sim, fuzzy_top_n_loop, fuzzy_top_n_step,
      List.insertionSort, List.orderedInsert, List.lookup]
    norm_num
    simp [List.lookup]

/-- Helper: generic versions of the lookup-cons lemmas for `List Char`
keys. -/
theorem lookupC_cons_self (k v : List Char) (l : List (List Char × List Char)) :
    ((k, v) :: l).lookup k = some v := by
  rw [List.lookup_cons]
  simp

/-- Helper: a prepended pair with a different `List Char` key does not affect
lookup. -/
theorem lookupC_cons_ne (a k v : List Char) (l : List (List Char × List Char))
    (h : a ≠ k) : ((k, v) :: l).lookup a = l.lookup a := by
  rw [List.lookup_cons]
  have hb : (a == k) = false := beq_eq_false_iff_ne.mpr h
  rw [hb]

/-- Helper: a block of entries none of whose keys is the looked-up one is
transparent to lookup. -/
theorem lookupC_append_no_key (a : List Char)
    (entries l : List (List Char × List Char))
    (h : ∀ e ∈ entries, e.1 ≠ a) :
    (entries ++ l).lookup a = l.lookup a := by
  induction entries with
  | nil => rfl
  | cons e es ih =>
    obtain ⟨k, v⟩ := e
    rw [List.cons_append,
      lookupC_cons_ne a k v _ (fun hc => h (k, v) (List.mem_cons_self _ _) hc.symm)]
    exact ih (fun e he => h e (List.mem_cons_of_mem _ he))

/-- Helper: dropping the tail of `noDoubleSlash`. -/
theorem noDoubleSlash_tail (c : Char) (rest : List Char)
    (h : noDoubleSlash (c :: rest) = true) : noDoubleSlash rest = true := by
  cases rest with
  | nil => rfl
  | cons b r2 =>
    have h2 := h
    unfold noDoubleSlash at h2
    exact (Bool.and_eq_true_iff.mp h2).2

/-- Helper: for a path without backslashes and without doubled slashes, every
chopped suffix is nonempty and does not start with `'/'`. -/
theorem path_suffixes_no_lead_slash (p : List Char) (hns : '\\' ∉ p)
    (hnd : noDoubleSlash p = true) :
    ∀ s ∈ path_suffixes p, s ≠ [] ∧ s.head? ≠ some '/' := by
  induction p with
  | nil => intro s hs; simp [path_suffixes] at hs
  | cons c rest ih =>
    intro s hs
    have hns2 : '\\' ∉ rest := fun hm => hns (List.mem_cons_of_mem _ hm)
    have hnd2 : noDoubleSlash rest = true := noDoubleSlash_tail c rest hnd
    unfold path_suffixes at hs
    by_cases hcond : (c = '/' ∨ c = '\\') ∧ rest ≠ []
    · rw [if_pos hcond] at hs
      rcases List.mem_cons.mp hs with hrest | hmem
      · rw [hrest]
        refine ⟨hcond.2, ?_⟩
        have hc : c = '/' := by
          rcases hcond.1 with h | h
          · exact h
          · exact absurd (h ▸ List.mem_cons_self c rest) hns
        cases hrest2 : rest with
        | nil => simp
        | cons b r2 =>
          simp only [List.head?_cons, ne_eq, Option.some.injEq]
          intro hb
          subst hb
          subst hc
          rw [hrest2] at hnd
          unfold noDoubleSlash at hnd
          rw [Bool.and_eq_true_iff] at hnd
          simp at hnd
      · exact ih hns2 hnd2 s hmem
    · rw [if_neg hcond] at hs
      exact ih hns2 hnd2 s hs

/-- Helper: the suffix-insert fold is a reversed map prepended to the initial
map. -/
theorem suffix_fold_eq (p : List Char) (l : List (List Char))
    (init : List (List Char × List Char)) :
    l.foldl (fun acc suf => (suf, p) :: acc) init =
      l.reverse.map (fun s => (s, p)) ++ init := by
  induction l generalizing init with
  | nil => simp
  | cons x l ih =>
    rw [List.foldl_cons, ih, List.reverse_cons, List.map_append]
    simp

/-- Helper: unpack `okPath`. -/
theorem okPath_props (p : List Char) (h : okPath p = true) :
    p.head? = some '/' ∧ '\\' ∉ p ∧ noDoubleSlash p = true := by
  unfold okPath at h
  rw [Bool.and_eq_true, Bool.and_eq_true] at h
  refine ⟨?_, ?_, h.2⟩
  · exact beq_iff_eq.mp h.1.1
  · intro hm
    have hfalse := h.1.2
    rw [Bool.not_eq_true'] at hfalse
    have htrue : p.elem '\\' = true := List.elem_iff.mpr hm
    have : p.contains '\\' = true := htrue
    rw [hfalse] at this
    exact Bool.false_ne_true this

/-- Helper: after inserting path `p`, looking up `p` itself gives `p`. -/
theorem lookup_cache_insert_path_self (m : List (List Char × List Char))
    (p : List Char) (hok : okPath p = true) :
    (cache_insert_path m p).lookup p = some p := by
  obtain ⟨hhead, hns, hnd⟩ := okPath_props p hok
  unfold cache_insert_path
  rw [suffix_fold_eq]
  rw [lookupC_append_no_key]
  · exact lookupC_cons_self p p m
  · intro e he hkey
    rcases List.mem_map.mp he with ⟨s, hsmem, hse⟩
    have hsprop := path_suffixes_no_lead_slash p hns hnd s
      (List.mem_reverse.mp hsmem)
    have : e.1 = s := by rw [← hse]
    rw [this] at hkey
    rw [hkey] at hsprop
    exact hsprop.2 hhead

/-- Helper: inserting a path preserves the self-lookup of any other ok
path already resolving to itself. -/
theorem lookup_cache_insert_path_preserve (m : List (List Char × List Char))
    (p q : List Char) (hokp : okPath p = true) (hokq : okPath q = true)
    (hq : m.lookup q = some q) :
    (cache_insert_path m p).lookup q = some q := by
  obtain ⟨hheadp, hnsp, hndp⟩ := okPath_props p hokp
  obtain ⟨hheadq, _, _⟩ := okPath_props q hokq
  by_cases hpq : q = p
  · subst hpq
    exact lookup_cache_insert_path_self m q hokq
  · unfold cache_insert_path
    rw [suffix_fold_eq]
    rw [lookupC_append_no_key]
    · exact (lookupC_cons_ne q p p m hpq).trans hq
    · intro e he hkey
      rcases List.mem_map.mp he with ⟨s, hsmem, hse⟩
      have hsprop := path_suffixes_no_lead_slash p hnsp hndp s
        (List.mem_reverse.mp hsmem)
      have : e.1 = s := by rw [← hse]
      rw [this] at hkey
      rw [hkey] at hsprop
      exact hsprop.2 hheadq

/-- Helper: folding further insertions over the cache preserves a self
lookup. -/
theorem rebuild_fold_preserve (paths : List (List Char))
    (hok : ∀ p ∈ paths, okPath p = true) (m : List (List Char × List Char))
    (q : List Char) (hokq : okPath q = true) (hq : m.lookup q = some q) :
    (paths.foldl cache_insert_path m).lookup q = some q := by
  induction paths generalizing m with
  | nil => exact hq
  | cons p rest ih =>
    rw [List.foldl_cons]
    exact ih (fun x hx => hok x (List.mem_cons_of_mem _ hx))
      (cache_insert_path m p) (lookup_cache_insert_path_preserve m p q
        (hok p (List.mem_cons_self _ _)) hokq hq)

/-- Helper: generalised main statement over an arbitrary starting map. -/
theorem rebuild_lookup_aux (paths : List (List Char))
    (hok : ∀ p ∈ paths, okPath p = true) (m : List (List Char × List Char)) :
    ∀ p ∈ paths, (paths.foldl cache_insert_path m).lookup p = some p := by
  induction paths generalizing m with
  | nil => intro p hp; simp at hp
  | cons x rest ih =>
    intro p hp
    rw [List.foldl_cons]
    rcases List.mem_cons.mp hp with hpx | hmem
    · subst hpx
      exact rebuild_fold_preserve rest
        (fun y hy => hok y (List.mem_cons_of_mem _ hy))
        (cache_insert_path m p) p (hok p (List.mem_cons_self _ _))
        (lookup_cache_insert_path_self m p (hok p (List.mem_cons_self _ _)))
    · exact ih (fun y hy => hok y (List.mem_cons_of_mem _ hy))
        (cache_insert_path m x) p hmem

/-- C7: after the cache rebuild, for every path `p` of the document
population (memory documents, workspace files, jsonl files), looking up the
full string of `p` in `cache_correction` yields `p` itself.  The population
is assumed to consist of canonical absolute paths (leading `'/'`, no `'\\'`
separators, no doubled slash), as the data model specifies. -/
theorem c7_cache_correction_self (paths : List (List Char))
    (hok : ∀ p ∈ paths, okPath p = true) :
    ∀ p ∈ paths, (files_cache_rebuild paths).lookup p = some p :=
  rebuild_lookup_aux paths hok []

/-- Witness for `c7_cache_correction_self` on a two-file workspace. -/
theorem c7_cache_correction_self_witness :
    (∀ p ∈ ["/a/b.py".toList, "/c.py".toList], okPath p = true) ∧
    (∀ p ∈ ["/a/b.py".toList, "/c.py".toList],
      (files_cache_rebuild ["/a/b.py".toList, "/c.py".toList]).lookup p =
        some p) :=
  ⟨by decide, c7_cache_correction_self _ (by decide)⟩

/-- Helper: an `Except` that is `isOk` is an `ok`. -/
theorem except_isOk_exists {ε α : Type} (x : Except ε α) (h : x.isOk = true) :
    ∃ a, x = Except.ok a := by
  cases x with
  | error e => simp [Except.isOk, Except.toBool] at h
  | ok a => exact ⟨a, rfl⟩

/-- C1: `diff_blocks_to_diff_chunks` never emits a chunk whose `lines_remove`
equals its `lines_add` (the filter at the end of the map), and therefore a
file-remove hunk — whose `DiffBlock` has no diff lines at all, so both joins
are empty — produces no chunk: parsing the repository's own
`test_remove_file` input returns zero chunks. -/
theorem c1_remove_chunk_dropped :
    (∀ (blocks : List DiffBlock) (c : DiffChunk),
        c ∈ diff_blocks_to_diff_chunks blocks →
          c.lines_remove ≠ c.lines_add) ∧
    parse_message (fun _ => none)
      (("Initial text\n```diff\n--- tests/emergency_frog_situation/holiday.py\n+++ /dev/null\n@@ ... @@\nimport frog\n```\nAnother text").toList) =
      Except.ok [] := by
  constructor
  · intro blocks c hc
    rcases List.mem_filterMap.mp hc with ⟨b, _, hb⟩
    simp only [diff_chunk_of_block] at hb
    split at hb
    · exact absurd hb (by simp)
    · rename_i hne
      have hc2 := Option.some.inj hb
      rw [← hc2]
      exact hne
  · rfl

/-- Witness for the first half of `c1_remove_chunk_dropped` at a concrete
block list. -/
theorem c1_remove_chunk_dropped_witness :
    ((⟨"f.py".toList, none, "edit", 1, 2, "x\n".toList, "y\n".toList⟩ :
        DiffChunk) ∈
      diff_blocks_to_diff_chunks
        [⟨"f.py".toList, "f.py".toList, "edit",
          [⟨"x".toList, LineType.Minus, some 0, some 0⟩,
           ⟨"y".toList, LineType.Plus, some 0, some 0⟩], 0, []⟩]) ∧
    (⟨"f.py".toList, none, "edit", 1, 2, "x\n".toList, "y\n".toList⟩ :
        DiffChunk).lines_remove ≠
      (⟨"f.py".toList, none, "edit", 1, 2, "x\n".toList, "y\n".toList⟩ :
        DiffChunk).lines_add :=
  ⟨by decide,
   c1_remove_chunk_dropped.1
     [⟨"f.py".toList, "f.py".toList, "edit",
       [⟨"x".toList, LineType.Minus, some 0, some 0⟩,
        ⟨"y".toList, LineType.Plus, some 0, some 0⟩], 0, []⟩]
     ⟨"f.py".toList, none, "edit", 1, 2, "x\n".toList, "y\n".toList⟩
     (by decide)⟩

/-- Helper: an edit whose paths are distinct non-`/dev/null` paths with an
existing destination errors with the rename message, whatever its index. -/
theorem edit_to_diff_blocks_rename_conflict (fs : FileSys) (idx : Nat)
    (e : Edit) (bp ap : List Char) (hbp : e.before_path = some bp)
    (hap : e.after_path = some ap) (hbp0 : bp ≠ devnull) (hap0 : ap ≠ devnull)
    (hne : bp ≠ ap) (hex : (fs ap).isSome = true) :
    edit_to_diff_blocks fs idx e = Except.error (rename_err_msg bp ap) := by
  obtain ⟨bpo, apo, hk⟩ := e
  simp only [Edit.before_path] at hbp
  simp only [Edit.after_path] at hap
  subst hbp
  subst hap
  simp only [edit_to_diff_blocks]
  rw [if_neg hbp0, if_neg hap0, if_pos ⟨hne, hex⟩]

/-- Helper: if some edit of the list errors (with the same message whatever
its index), the whole enumerated loop errors. -/
theorem edit_hunks_go_err_of_mem (fs : FileSys) (msg0 : List Char) (e : Edit)
    (h : ∀ i, edit_to_diff_blocks fs i e = Except.error msg0) :
    ∀ (edits : List Edit) (idx : Nat), e ∈ edits →
      ∃ msg, edit_hunks_go fs idx edits = Except.error msg := by
  intro edits
  induction edits with
  | nil => intro idx he; exact absurd he (List.not_mem_nil e)
  | cons x rest ih =>
    intro idx he
    cases hx : edit_to_diff_blocks fs idx x with
    | error msg => exact ⟨msg, by simp [edit_hunks_go, hx]⟩
    | ok bs =>
      have hmem : e ∈ rest := by
        rcases List.mem_cons.mp he with hex2 | hr
        · subst hex2
          rw [h idx] at hx
          exact absurd hx (by simp)
        · exact hr
      rcases ih (idx + 1) hmem with ⟨msg, hrec⟩
      exact ⟨msg, by simp [edit_hunks_go, hx, hrec]⟩

/-- Helper: when every edit before the conflicting one succeeds, the loop
errors with exactly the conflict's message. -/
theorem edit_hunks_go_err_first (fs : FileSys) (msg0 : List Char) (e : Edit)
    (post : List Edit)
    (h : ∀ i, edit_to_diff_blocks fs i e = Except.error msg0) :
    ∀ (pre : List Edit) (idx : Nat),
      (∀ e2 ∈ pre, ∀ i, (edit_to_diff_blocks fs i e2).isOk = true) →
      edit_hunks_go fs idx (pre ++ e :: post) = Except.error msg0 := by
  intro pre
  induction pre with
  | nil =>
    intro idx _
    simp [edit_hunks_go, h idx]
  | cons x rest ih =>
    intro idx hpre
    rcases except_isOk_exists _ (hpre x (List.mem_cons_self _ _) idx) with
      ⟨bs, hbs⟩
    have hrec := ih (idx + 1)
      (fun e2 he2 => hpre e2 (List.mem_cons_of_mem _ he2))
    simp [edit_hunks_go, hbs, hrec]

/-- Helper: an error from `edit_hunks_to_diff_blocks` propagates unchanged
through `parse_message`. -/
theorem parse_message_err_of_blocks_err (fs : FileSys) (content : List Char)
    (msg : List Char)
    (h : edit_hunks_to_diff_blocks fs (get_edit_hunks content) =
      Except.error msg) :
    parse_message fs content = Except.error msg := by
  unfold parse_message
  rw [h]

/-- C6: a parsed hunk whose before/after paths are distinct non-`/dev/null`
paths with a file already existing at the after path makes
`parse_message` return an error (no chunks); when every earlier hunk
processes cleanly, the error is the rename message, which contains the
destination path. -/
theorem c6_rename_destination_exists (fs : FileSys) (content : List Char)
    (pre post : List Edit) (e : Edit) (bp ap : List Char)
    (hsplit : get_edit_hunks content = pre ++ e :: post)
    (hbp : e.before_path = some bp) (hap : e.after_path = some ap)
    (hbp0 : bp ≠ devnull) (hap0 : ap ≠ devnull) (hne : bp ≠ ap)
    (hex : (fs ap).isSome = true) :
    (∃ msg, parse_message fs content = Except.error msg) ∧
    ((∀ e2 ∈ pre, ∀ i, (edit_to_diff_blocks fs i e2).isOk = true) →
      parse_message fs content = Except.error (rename_err_msg bp ap) ∧
      ap <:+: rename_err_msg bp ap) := by
  have hconf : ∀ i, edit_to_diff_blocks fs i e =
      Except.error (rename_err_msg bp ap) :=
    fun i => edit_to_diff_blocks_rename_conflict fs i e bp ap hbp hap hbp0
      hap0 hne hex
  constructor
  · have hmem : e ∈ get_edit_hunks content := by
      rw [hsplit]
      exact List.mem_append_right pre (List.mem_cons_self _ _)
    rcases edit_hunks_go_err_of_mem fs (rename_err_msg bp ap) e hconf
      (get_edit_hunks content) 0 hmem with ⟨msg, hmsg⟩
    exact ⟨msg, parse_message_err_of_blocks_err fs content msg hmsg⟩
  · intro hpre
    constructor
    · apply parse_message_err_of_blocks_err
      unfold edit_hunks_to_diff_blocks
      rw [hsplit]
      exact edit_hunks_go_err_first fs (rename_err_msg bp ap) e post hconf
        pre 0 hpre
    · refine ⟨"cannot rename ".toList ++ bp ++ ", destination file ".toList,
        " name already exists".toList, ?_⟩
      simp [rename_err_msg]

/-- Witness for `c6_rename_destination_exists`: a one-hunk rename whose
destination `b.py` exists. -/
theorem c6_rename_destination_exists_witness :
    (get_edit_hunks (("```diff\n--- a.py\n+++ b.py\n@@ ... @@\n-x\n+y\n```").toList) =
      [] ++ (⟨some "a.py".toList, some "b.py".toList,
        ["-x".toList, "+y".toList]⟩ : Edit) :: []) ∧
    (∃ msg, parse_message
      (fun p => if p = "b.py".toList then some [] else none)
      (("```diff\n--- a.py\n+++ b.py\n@@ ... @@\n-x\n+y\n```").toList) =
        Except.error msg) := by
  constructor
  · decide
  · exact (c6_rename_destination_exists
      (fun p => if p = "b.py".toList then some [] else none)
      (("```diff\n--- a.py\n+++ b.py\n@@ ... @@\n-x\n+y\n```").toList)
      [] [] ⟨some "a.py".toList, some "b.py".toList,
        ["-x".toList, "+y".toList]⟩ "a.py".toList "b.py".toList
      (by decide) (by decide) (by decide) (by decide) (by decide)
      (by decide) (by decide)).1

/-- C8 (counterexample): plain string concatenation of two independently
valid inputs is *not* order-free: when the first input does not end in a
newline, its last line merges with the opening ```` ```diff ```` fence of the
second input, the fence is lost, and the second input's chunks disappear.
Here `"x"` parses to no chunks and the add-file patch parses to one chunk,
but their concatenation parses to no chunks instead of the union. -/
theorem c8_counterexample :
    parse_message (fun _ => none) ("x".toList) = Except.ok [] ∧
    parse_message (fun _ => none)
      (("```diff\n--- /dev/null\n+++ a.py\n@@ ... @@\n+hello\n```").toList) =
      Except.ok [⟨"a.py".toList, none, "add", 1, 1, [], "hello\n".toList⟩] ∧
    parse_message (fun _ => none)
      ("x".toList ++
        ("```diff\n--- /dev/null\n+++ a.py\n@@ ... @@\n+hello\n```").toList) =
      Except.ok [] ∧
    edits_paths (get_edit_hunks ("x".toList)) = [] ∧
    ((Except.ok ([] : List DiffChunk) : Except (List Char) (List DiffChunk)) ≠
      Except.ok (([] : List DiffChunk) ++
        [⟨"a.py".toList, none, "add", 1, 1, [], "hello\n".toList⟩])) := by
  refine ⟨rfl, rfl, rfl, rfl, ?_⟩
  intro h
  exact absurd (Except.ok.inj h) (by decide)

/-- Helper: `splitNl` never returns the empty list of pieces. -/
theorem splitNl_ne_nil (s : List Char) : splitNl s ≠ [] := by
  cases s with
  | nil => simp [splitNl]
  | cons c rest =>
    by_cases h : c = '\n'
    · subst h
      simp [splitNl]
    · rw [splitNl.eq_3 c rest h]
      cases hr : splitNl rest with
      | nil => simp
      | cons l ls => simp

/-- Helper: splitting at an inserted `'\n'` separates the two halves. -/
theorem splitNl_append (a b : List Char) :
    splitNl (a ++ '\n' :: b) = splitNl a ++ splitNl b := by
  induction a with
  | nil => simp [splitNl]
  | cons c a ih =>
    by_cases h : c = '\n'
    · subst h
      show splitNl ('\n' :: (a ++ '\n' :: b)) = _
      rw [splitNl.eq_2, ih]
      rfl
    · rcases List.exists_cons_of_ne_nil (splitNl_ne_nil a) with ⟨l, ls, hls⟩
      show splitNl (c :: (a ++ '\n' :: b)) = _
      rw [splitNl.eq_3 c _ h, splitNl.eq_3 c a h, ih, hls]
      simp

/-- Helper: every piece of `splitNl` is free of `'\n'`. -/
theorem splitNl_no_newline (s : List Char) :
    ∀ p ∈ splitNl s, '\n' ∉ p := by
  induction s with
  | nil => intro p hp; simp [splitNl] at hp; simp [hp]
  | cons c rest ih =>
    intro p hp
    by_cases h : c = '\n'
    · subst h
      rw [splitNl.eq_2] at hp
      rcases List.mem_cons.mp hp with h0 | h0
      · simp [h0]
      · exact ih p h0
    · rw [splitNl.eq_3 c rest h] at hp
      cases hr : splitNl rest with
      | nil => exact absurd hr (splitNl_ne_nil rest)
      | cons l ls =>
        rw [hr] at hp
        rcases List.mem_cons.mp hp with h0 | h0
        · subst h0
          intro hmem
          rcases List.mem_cons.mp hmem with hc | hc
          · exact h hc.symm
          · exact ih l (by rw [hr]; exact List.mem_cons_self _ _) hc
        · exact ih p (by rw [hr]; exact List.mem_cons_of_mem _ h0)

/-- Helper: every line produced by `rustLines` is free of `'\n'` (so in
particular no line ever equals the literal `"\n"`). -/
theorem rustLines_no_newline (s : List Char) :
    ∀ l ∈ rustLines s, '\n' ∉ l := by
  intro l hl
  unfold rustLines at hl
  rcases List.mem_map.mp hl with ⟨p, hp, hstrip⟩
  have hmem : p ∈ splitNl s := by
    by_cases hc : (splitNl s).getLast? = some []
    · rw [if_pos hc] at hp
      exact List.dropLast_subset _ hp
    · rw [if_neg hc] at hp
      exact hp
  have hnop := splitNl_no_newline s p hmem
  intro hmeml
  apply hnop
  rw [← hstrip] at hmeml
  unfold stripCrEnd at hmeml
  by_cases hcr : p.getLast? = some '\r'
  · rw [if_pos hcr] at hmeml
    exact List.dropLast_subset _ hmeml
  · rw [if_neg hcr] at hmeml
    exact hmeml

/-- Helper: `rustLines` of two halves joined by `'\n'`: the first half's
lines, a possible single empty line (when the first half ends in `'\n'`),
then the second half's lines. -/
theorem rustLines_append (s1 s2 : List Char) :
    rustLines (s1 ++ '\n' :: s2) =
      rustLines s1 ++
        ((if (splitNl s1).getLast? = some ([] : List Char) then [([] : List Char)] else []) ++
          rustLines s2) := by
  unfold rustLines
  rw [splitNl_append]
  rcases List.exists_cons_of_ne_nil (splitNl_ne_nil s2) with ⟨l, ls, hls⟩
  have hBne : splitNl s2 ≠ [] := splitNl_ne_nil s2
  have hlast : (splitNl s1 ++ splitNl s2).getLast? = (splitNl s2).getLast? := by
    rw [List.getLast?_append]
    rcases List.exists_cons_of_ne_nil hBne with ⟨x, xs, hx⟩
    rw [hx]
    cases hxs : (x :: xs).getLast? with
    | none => simp at hxs
    | some v => simp
  by_cases hB : (splitNl s2).getLast? = some ([] : List Char)
  · rw [hlast, if_pos hB, if_pos hB]
    have hdrop : (splitNl s1 ++ splitNl s2).dropLast =
        splitNl s1 ++ (splitNl s2).dropLast := by
      rw [List.dropLast_append_of_ne_nil]
      exact hBne
    rw [hdrop, List.map_append]
    by_cases hA : (splitNl s1).getLast? = some ([] : List Char)
    · rw [if_pos hA]
      rcases List.getLast?_eq_some_iff.mp hA with ⟨ys, hys⟩
      rw [hys]
      simp [stripCrEnd]
    · rw [if_neg hA]
      simp [hA]
  · rw [hlast, if_neg hB, if_neg hB, List.map_append]
    by_cases hA : (splitNl s1).getLast? = some ([] : List Char)
    · rw [if_pos hA]
      rcases List.getLast?_eq_some_iff.mp hA with ⟨ys, hys⟩
      rw [hys]
      simp [stripCrEnd]
    · rw [if_neg hA]
      simp [hA]

/-- Helper: lines that do not open a ```` ```diff ```` fence are skipped by
the scanner while it is outside a fence. -/
theorem scan_skip_mid (mid l : List (List Char))
    (h : ∀ m ∈ mid, startsWithC fence_diff_marker m = false) :
    scan_fenced_blocks none (mid ++ l) = scan_fenced_blocks none l := by
  induction mid with
  | nil => rfl
  | cons m mid ih =>
    rw [List.cons_append]
    show scan_fenced_blocks none (m :: (mid ++ l)) = _
    rw [scan_fenced_blocks.eq_2]
    rw [h m (List.mem_cons_self _ _)]
    simp only [Bool.false_eq_true, if_false]
    exact ih (fun m2 hm2 => h m2 (List.mem_cons_of_mem _ hm2))

/-- Helper: when the scanner ends outside a fence on the first line list, it
processes a concatenation as the two halves independently. -/
theorem scan_append_closed (l1 : List (List Char)) :
    ∀ (mode : Option (List (List Char))),
      scan_ends_outside mode.isNone l1 = true →
      ∀ l2, scan_fenced_blocks mode (l1 ++ l2) =
        scan_fenced_blocks mode l1 ++ scan_fenced_blocks none l2 := by
  induction l1 with
  | nil =>
    intro mode h l2
    cases mode with
    | none => simp [scan_fenced_blocks]
    | some acc => simp [scan_ends_outside] at h
  | cons x rest ih =>
    intro mode h l2
    cases mode with
    | none =>
      rw [List.cons_append]
      show scan_fenced_blocks none (x :: (rest ++ l2)) = _
      rw [scan_fenced_blocks.eq_2, scan_fenced_blocks.eq_2]
      by_cases hx : startsWithC fence_diff_marker x = true
      · rw [hx]
        simp only [if_true]
        have h3 : scan_ends_outside true (x :: rest) = true := h
        rw [scan_ends_outside.eq_2] at h3
        rw [hx] at h3
        simp only [if_true] at h3
        exact ih (some []) h3 l2
      · rw [Bool.not_eq_true] at hx
        rw [hx]
        simp only [Bool.false_eq_true, if_false]
        have h3 : scan_ends_outside true (x :: rest) = true := h
        rw [scan_ends_outside.eq_2] at h3
        rw [hx] at h3
        simp only [Bool.false_eq_true, if_false] at h3
        exact ih none h3 l2
    | some acc =>
      rw [List.cons_append]
      show scan_fenced_blocks (some acc) (x :: (rest ++ l2)) = _
      rw [scan_fenced_blocks.eq_4, scan_fenced_blocks.eq_4]
      by_cases hx : startsWithC fence_marker x = true
      · rw [hx]
        simp only [if_true]
        have h3 : scan_ends_outside false (x :: rest) = true := h
        rw [scan_ends_outside.eq_3] at h3
        rw [hx] at h3
        simp only [if_true] at h3
        rw [ih none h3 l2]
        rw [List.append_assoc]
      · rw [Bool.not_eq_true] at hx
        rw [hx]
        simp only [Bool.false_eq_true, if_false]
        have h3 : scan_ends_outside false (x :: rest) = true := h
        rw [scan_ends_outside.eq_3] at h3
        rw [hx] at h3
        simp only [Bool.false_eq_true, if_false] at h3
        exact ih (some (x :: acc)) h3 l2

/-- Helper: with every fence of the first input closed, `get_edit_hunks` of
the newline-joined concatenation is the concatenation of the edit lists. -/
theorem get_edit_hunks_append (s1 s2 : List Char)
    (hclosed : scan_ends_outside true (rustLines s1) = true) :
    get_edit_hunks (s1 ++ '\n' :: s2) =
      get_edit_hunks s1 ++ get_edit_hunks s2 := by
  unfold get_edit_hunks
  rw [rustLines_append]
  rw [← List.append_assoc]
  rw [List.append_assoc (rustLines s1)]
  have hmid : ∀ m ∈ (if (splitNl s1).getLast? = some ([] : List Char) then
      [([] : List Char)] else []), startsWithC fence_diff_marker m = false := by
    intro m hm
    by_cases hc : (splitNl s1).getLast? = some ([] : List Char)
    · rw [if_pos hc] at hm
      rcases List.mem_cons.mp hm with h0 | h0
      · subst h0; rfl
      · exact absurd h0 (List.not_mem_nil m)
    · rw [if_neg hc] at hm
      exact absurd hm (List.not_mem_nil m)
  rw [scan_append_closed (rustLines s1) none hclosed]
  rw [scan_skip_mid _ _ hmid]

/-- Helper: the enumerated edit loop over a concatenation is the two loops
with the index of the second shifted by the first's length. -/
theorem edit_hunks_go_append (fs : FileSys) (a b : List Edit) :
    ∀ idx, edit_hunks_go fs idx (a ++ b) =
      (match edit_hunks_go fs idx a with
      | Except.error m => Except.error m
      | Except.ok xs =>
        match edit_hunks_go fs (idx + a.length) b with
        | Except.error m => Except.error m
        | Except.ok ys => Except.ok (xs ++ ys)) := by
  induction a with
  | nil =>
    intro idx
    simp only [List.nil_append, edit_hunks_go, List.length_nil, Nat.add_zero]
    cases edit_hunks_go fs idx b <;> simp
  | cons e a ih =>
    intro idx
    rw [List.cons_append]
    show edit_hunks_go fs idx (e :: (a ++ b)) = _
    rw [edit_hunks_go.eq_2, edit_hunks_go.eq_2]
    cases he : edit_to_diff_blocks fs idx e with
    | error m => rfl
    | ok bs =>
      rw [ih (idx + 1)]
      have heq : idx + (e :: a).length = idx + 1 + a.length := by
        simp [List.length_cons]
        omega
      rw [heq]
      cases ha : edit_hunks_go fs (idx + 1) a with
      | error m => rfl
      | ok xs =>
        cases hb : edit_hunks_go fs (idx + 1 + a.length) b with
        | error m => rfl
        | ok ys => simp

/-- Helper: `shiftB` composes additively. -/
theorem shiftB_comp (j k : Nat) (b : DiffBlock) :
    shiftB k (shiftB j b) = shiftB (j + k) b := by
  simp [shiftB, Nat.add_assoc]

/-- Helper: the grouping fold stores `idx` only inside the produced blocks'
`hunk_idx`. -/
theorem edit_build_fold_shift (idx : Nat) (action : String)
    (bp ap : List Char) (fl : List (List Char)) (ha : Bool)
    (l : List (List Char)) :
    ∀ st : EditBuildState,
      l.foldl (edit_build_step idx action bp ap fl ha)
        ⟨st.blocksRev.map (shiftB idx), st.curRev, st.block_has_minus_plus⟩ =
      (fun st2 : EditBuildState =>
        (⟨st2.blocksRev.map (shiftB idx), st2.curRev,
          st2.block_has_minus_plus⟩ : EditBuildState))
        (l.foldl (edit_build_step 0 action bp ap fl ha) st) := by
  induction l with
  | nil => intro st; rfl
  | cons x l ih =>
    intro st
    rw [List.foldl_cons, List.foldl_cons]
    by_cases hx : startsWithC ['-'] x = true ∨ startsWithC ['+'] x = true
    · have hstep : edit_build_step idx action bp ap fl ha
          ⟨st.blocksRev.map (shiftB idx), st.curRev, st.block_has_minus_plus⟩ x =
          ⟨(edit_build_step 0 action bp ap fl ha st x).blocksRev.map (shiftB idx),
           (edit_build_step 0 action bp ap fl ha st x).curRev,
           (edit_build_step 0 action bp ap fl ha st x).block_has_minus_plus⟩ := by
        simp only [edit_build_step, if_pos hx]
      rw [hstep]
      exact ih (edit_build_step 0 action bp ap fl ha st x)
    · have hstep : edit_build_step idx action bp ap fl ha
          ⟨st.blocksRev.map (shiftB idx), st.curRev, st.block_has_minus_plus⟩ x =
          ⟨(edit_build_step 0 action bp ap fl ha st x).blocksRev.map (shiftB idx),
           (edit_build_step 0 action bp ap fl ha st x).curRev,
           (edit_build_step 0 action bp ap fl ha st x).block_has_minus_plus⟩ := by
        simp only [edit_build_step, if_neg hx]
        by_cases hmp : st.block_has_minus_plus = true
        · simp only [hmp, if_true, List.map_cons]
          simp [shiftB, Nat.zero_add]
        · rw [Bool.not_eq_true] at hmp
          simp only [hmp, Bool.false_eq_true, if_false]
      rw [hstep]
      exact ih (edit_build_step 0 action bp ap fl ha st x)

/-- Helper: a single edit processed at index `idx` is the index-0 result with
every block's `hunk_idx` shifted by `idx`. -/
theorem edit_to_diff_blocks_shift (fs : FileSys) (idx : Nat) (e : Edit) :
    edit_to_diff_blocks fs idx e =
      (edit_to_diff_blocks fs 0 e).map (List.map (shiftB idx)) := by
  obtain ⟨bpo, apo, hk⟩ := e
  cases bpo with
  | none => rfl
  | some bp =>
    cases apo with
    | none => rfl
    | some ap =>
      simp only [edit_to_diff_blocks]
      by_cases h1 : bp = devnull
      · rw [if_pos h1, if_pos h1]
        simp [Except.map, make_add_type_diff_block, shiftB, Nat.zero_add]
      · rw [if_neg h1, if_neg h1]
        by_cases h2 : ap = devnull
        · rw [if_pos h2, if_pos h2]
          simp [Except.map, make_remove_type_diff_block, shiftB, Nat.zero_add]
        · rw [if_neg h2, if_neg h2]
          by_cases h3 : bp ≠ ap ∧ (fs ap).isSome = true
          · rw [if_pos h3, if_pos h3]
            rfl
          · rw [if_neg h3, if_neg h3]
            cases hfl : fs bp with
            | none => rfl
            | some file_lines =>
              dsimp only
              have hfold := edit_build_fold_shift idx
                (if bp ≠ ap then "rename" else "edit") bp ap file_lines
                (hk.any (fun x => !(startsWithC [' '] x))) hk
                ⟨[], [], false⟩
              simp only [List.map_nil] at hfold
              rw [hfold]
              cases hcur : (hk.foldl (edit_build_step 0
                  (if bp ≠ ap then "rename" else "edit") bp ap file_lines
                  (hk.any (fun x => !(startsWithC [' '] x))))
                  ⟨[], [], false⟩).curRev.isEmpty with
              | true =>
                simp only [hcur, if_true, Except.map, List.map_reverse]
              | false =>
                simp only [hcur, Bool.false_eq_true, if_false, Except.map,
                  List.map_reverse, List.map_cons]
                simp [shiftB, Nat.zero_add]

/-- Helper: the whole enumerated loop at start index `k` is the index-0 run
with every block's `hunk_idx` shifted by `k`. -/
theorem edit_hunks_go_shift (fs : FileSys) (es : List Edit) :
    ∀ k, edit_hunks_go fs k es =
      (edit_hunks_go fs 0 es).map (List.map (shiftB k)) := by
  induction es with
  | nil => intro k; rfl
  | cons e rest ih =>
    intro k
    rw [edit_hunks_go.eq_2, edit_hunks_go.eq_2]
    rw [edit_to_diff_blocks_shift fs k e]
    cases he : edit_to_diff_blocks fs 0 e with
    | error m => rfl
    | ok bs =>
      rw [ih (k + 1), ih 1]
      cases hr : edit_hunks_go fs 0 rest with
      | error m => rfl
      | ok more =>
        simp only [Except.map, List.map_append, List.map_map]
        have hcomp : (shiftB k ∘ shiftB 1) = shiftB (1 + k) := by
          funext b
          exact shiftB_comp 1 k b
        rw [hcomp]
        have hk : 1 + k = k + 1 := Nat.add_comm 1 k
        rw [hk]

/-- Helper: each block produced for one edit carries that edit's index. -/
theorem edit_build_fold_idx (idx : Nat) (action : String) (bp ap : List Char)
    (fl : List (List Char)) (ha : Bool) (l : List (List Char)) :
    ∀ st : EditBuildState,
      (∀ b ∈ st.blocksRev, b.hunk_idx = idx) →
      ∀ b ∈ (l.foldl (edit_build_step idx action bp ap fl ha) st).blocksRev,
        b.hunk_idx = idx := by
  induction l with
  | nil => intro st hst; exact hst
  | cons x l ih =>
    intro st hst
    rw [List.foldl_cons]
    apply ih
    intro b hb
    simp only [edit_build_step] at hb
    by_cases hx : startsWithC ['-'] x = true ∨ startsWithC ['+'] x = true
    · rw [if_pos hx] at hb
      exact hst b hb
    · rw [if_neg hx] at hb
      by_cases hmp : st.block_has_minus_plus = true
      · simp only [hmp, if_true] at hb
        rcases List.mem_cons.mp hb with h0 | h0
        · rw [h0]
        · exact hst b h0
      · rw [Bool.not_eq_true] at hmp
        simp only [hmp, Bool.false_eq_true, if_false] at hb
        exact hst b hb

/-- Helper: all blocks of one edit have `hunk_idx = idx`. -/
theorem edit_to_diff_blocks_idx (fs : FileSys) (idx : Nat) (e : Edit)
    (bs : List DiffBlock) (h : edit_to_diff_blocks fs idx e = Except.ok bs) :
    ∀ b ∈ bs, b.hunk_idx = idx := by
  obtain ⟨bpo, apo, hk⟩ := e
  cases bpo with
  | none => exact absurd h (by simp [edit_to_diff_blocks])
  | some bp =>
    cases apo with
    | none => exact absurd h (by simp [edit_to_diff_blocks])
    | some ap =>
      simp only [edit_to_diff_blocks] at h
      by_cases h1 : bp = devnull
      · rw [if_pos h1] at h
        have hbs := Except.ok.inj h
        intro b hb
        rw [← hbs] at hb
        rcases List.mem_cons.mp hb with h0 | h0
        · rw [h0]; rfl
        · exact absurd h0 (List.not_mem_nil b)
      · rw [if_neg h1] at h
        by_cases h2 : ap = devnull
        · rw [if_pos h2] at h
          have hbs := Except.ok.inj h
          intro b hb
          rw [← hbs] at hb
          rcases List.mem_cons.mp hb with h0 | h0
          · rw [h0]; rfl
          · exact absurd h0 (List.not_mem_nil b)
        · rw [if_neg h2] at h
          by_cases h3 : bp ≠ ap ∧ (fs ap).isSome = true
          · rw [if_pos h3] at h
            exact absurd h (by simp)
          · rw [if_neg h3] at h
            cases hfl : fs bp with
            | none => rw [hfl] at h; exact absurd h (by simp)
            | some file_lines =>
              rw [hfl] at h
              dsimp only at h
              have hfold := edit_build_fold_idx idx
                (if bp ≠ ap then "rename" else "edit") bp ap file_lines
                (hk.any (fun x => !(startsWithC [' '] x))) hk
                ⟨[], [], false⟩ (by intro b hb; exact absurd hb (List.not_mem_nil b))
              cases hcur : (hk.foldl (edit_build_step idx
                  (if bp ≠ ap then "rename" else "edit") bp ap file_lines
                  (hk.any (fun x => !(startsWithC [' '] x))))
                  ⟨[], [], false⟩).curRev.isEmpty with
              | true =>
                rw [hcur] at h
                simp only [if_true] at h
                have hbs := Except.ok.inj h
                intro b hb
                rw [← hbs] at hb
                exact hfold b (List.mem_reverse.mp hb)
              | false =>
                rw [hcur] at h
                simp only [Bool.false_eq_true, if_false] at h
                have hbs := Except.ok.inj h
                intro b hb
                rw [← hbs] at hb
                have := List.mem_reverse.mp hb
                rcases List.mem_cons.mp this with h0 | h0
                · rw [h0]
                · exact hfold b h0

/-- Helper: processing at least one hunk line leaves a nonempty current
group. -/
theorem edit_build_fold_cur_ne (idx : Nat) (action : String) (bp ap : List Char)
    (fl : List (List Char)) (ha : Bool) :
    ∀ (l : List (List Char)) (st : EditBuildState), l ≠ [] →
      ((l.foldl (edit_build_step idx action bp ap fl ha) st).curRev ≠ [] ∨
       (l.foldl (edit_build_step idx action bp ap fl ha) st).blocksRev ≠ []) := by
  intro l
  induction l with
  | nil => intro st h; exact absurd rfl h
  | cons x l ih =>
    intro st _
    rw [List.foldl_cons]
    by_cases hl : l = []
    · subst hl
      left
      simp only [List.foldl_nil, edit_build_step]
      by_cases hx : startsWithC ['-'] x = true ∨ startsWithC ['+'] x = true
      · rw [if_pos hx]; simp
      · rw [if_neg hx]
        by_cases hmp : st.block_has_minus_plus = true
        · simp only [hmp, if_true]; simp
        · rw [Bool.not_eq_true] at hmp
          simp only [hmp, Bool.false_eq_true, if_false]; simp
    · exact ih (edit_build_step idx action bp ap fl ha st x) hl

/-- Helper: an edit with a nonempty hunk, once it processes without error,
contributes at least one block. -/
theorem edit_to_diff_blocks_ne_nil (fs : FileSys) (idx : Nat) (e : Edit)
    (bs : List DiffBlock) (hh : e.hunk ≠ [])
    (h : edit_to_diff_blocks fs idx e = Except.ok bs) : bs ≠ [] := by
  obtain ⟨bpo, apo, hk⟩ := e
  cases bpo with
  | none => exact absurd h (by simp [edit_to_diff_blocks])
  | some bp =>
    cases apo with
    | none => exact absurd h (by simp [edit_to_diff_blocks])
    | some ap =>
      simp only [edit_to_diff_blocks] at h
      simp only [Edit.hunk] at hh
      by_cases h1 : bp = devnull
      · rw [if_pos h1] at h
        have hbs := Except.ok.inj h
        rw [← hbs]
        simp
      · rw [if_neg h1] at h
        by_cases h2 : ap = devnull
        · rw [if_pos h2] at h
          have hbs := Except.ok.inj h
          rw [← hbs]
          simp
        · rw [if_neg h2] at h
          by_cases h3 : bp ≠ ap ∧ (fs ap).isSome = true
          · rw [if_pos h3] at h
            exact absurd h (by simp)
          · rw [if_neg h3] at h
            cases hfl : fs bp with
            | none => rw [hfl] at h; exact absurd h (by simp)
            | some file_lines =>
              rw [hfl] at h
              dsimp only at h
              have hcne := edit_build_fold_cur_ne idx
                (if bp ≠ ap then "rename" else "edit") bp ap file_lines
                (hk.any (fun x => !(startsWithC [' '] x))) hk
                ⟨[], [], false⟩ hh
              cases hcur : (hk.foldl (edit_build_step idx
                  (if bp ≠ ap then "rename" else "edit") bp ap file_lines
                  (hk.any (fun x => !(startsWithC [' '] x))))
                  ⟨[], [], false⟩).curRev.isEmpty with
              | true =>
                rw [hcur] at h
                simp only [if_true] at h
                have hbs := Except.ok.inj h
                rw [← hbs]
                rcases hcne with hc | hc
                · exact absurd (List.isEmpty_iff.mp hcur) hc
                · simp only [ne_eq, List.reverse_eq_nil_iff]
                  exact hc
              | false =>
                rw [hcur] at h
                simp only [Bool.false_eq_true, if_false] at h
                have hbs := Except.ok.inj h
                rw [← hbs]
                simp

/-- Helper: one `fenced_op_step` keeps hunk lines newline-free and every
flushed edit's hunk nonempty. -/
theorem fenced_op_step_inv (arb : Bool) (st : FencedState) (line : List Char)
    (hr : List (List Char))
    (hhr : ∀ l ∈ hr, '\n' ∉ l)
    (hed : ∀ e ∈ st.editsRev, e.hunk ≠ []) :
    (∀ l ∈ (fenced_op_step arb st line hr).hunkRev, '\n' ∉ l) ∧
    (∀ e ∈ (fenced_op_step arb st line hr).editsRev, e.hunk ≠ []) := by
  simp only [fenced_op_step]
  split
  · exact ⟨hhr, hed⟩
  · split
    · exact ⟨hhr, hed⟩
    · split
      · exact ⟨fun l hl => absurd hl (List.not_mem_nil l), hed⟩
      · next h3 =>
        refine ⟨fun l hl => absurd hl (List.not_mem_nil l), ?_⟩
        intro e he
        rcases List.mem_cons.mp he with h0 | h0
        · rw [h0]
          show ((hr.drop 1).reverse) ≠ []
          simp only [ne_eq, List.reverse_eq_nil_iff]
          intro hd
          have hlen := congrArg List.length hd
          rw [List.length_drop] at hlen
          simp only [List.length_nil] at hlen
          exact h3 (by omega)
        · exact hed e h0

/-- Helper: one scanner-loop step keeps hunk lines newline-free and every
flushed edit's hunk nonempty. -/
theorem fenced_line_step_inv (arb : Bool) (st : FencedState) (line : List Char)
    (hline : '\n' ∉ line)
    (hhr : ∀ l ∈ st.hunkRev, '\n' ∉ l)
    (hed : ∀ e ∈ st.editsRev, e.hunk ≠ []) :
    (∀ l ∈ (fenced_line_step arb st line).hunkRev, '\n' ∉ l) ∧
    (∀ e ∈ (fenced_line_step arb st line).editsRev, e.hunk ≠ []) := by
  obtain ⟨bp0, ap0, hkr, edr⟩ := st
  have hhr2 : ∀ l ∈ hkr, '\n' ∉ l := hhr
  have hed2 : ∀ e ∈ edr, e.hunk ≠ [] := hed
  have hcons : ∀ l ∈ line :: hkr, '\n' ∉ l := by
    intro l hl
    rcases List.mem_cons.mp hl with h0 | h0
    · rw [h0]; exact hline
    · exact hhr2 l h0
  simp only [fenced_line_step]
  by_cases hshort : line.length < 2
  · rw [if_pos hshort]
    exact ⟨hcons, hed2⟩
  · rw [if_neg hshort]
    cases hkr with
    | nil => exact fenced_op_step_inv arb ⟨bp0, ap0, [], edr⟩ line _ hcons hed2
    | cons prev rest2 =>
      dsimp only
      by_cases htest : startsWithC plus_marker line = true ∧ rest2 ≠ [] ∧
          startsWithC dash_marker prev = true
      · rw [if_pos htest]
        have hne : ¬ (rest2.head? = some nl_string) := by
          intro hh
          cases rest2 with
          | nil => simp at hh
          | cons x xs =>
            have hx : x = nl_string := by
              simpa using hh
            have hmem : x ∈ prev :: x :: xs := by
              exact List.mem_cons_of_mem _ (List.mem_cons_self _ _)
            have := hhr2 x hmem
            rw [hx] at this
            exact this (by decide)
        rw [if_neg hne]
        refine ⟨fun l hl => absurd hl (List.not_mem_nil l), ?_⟩
        intro e he
        rcases List.mem_cons.mp he with h0 | h0
        · rw [h0]
          show rest2.reverse ≠ []
          simp only [ne_eq, List.reverse_eq_nil_iff]
          exact htest.2.1
        · exact hed2 e h0
      · rw [if_neg htest]
        exact fenced_op_step_inv arb ⟨bp0, ap0, prev :: rest2, edr⟩ line _
          hcons hed2

/-- Helper: the scanner-loop fold keeps every flushed edit's hunk nonempty
when all processed lines are newline-free. -/
theorem fenced_fold_hunk_ne (arb : Bool) :
    ∀ (block : List (List Char)) (st : FencedState),
      (∀ l ∈ block, '\n' ∉ l) →
      (∀ l ∈ st.hunkRev, '\n' ∉ l) →
      (∀ e ∈ st.editsRev, e.hunk ≠ []) →
      ∀ e ∈ (block.foldl (fenced_line_step arb) st).editsRev, e.hunk ≠ [] := by
  intro block
  induction block with
  | nil => intro st _ _ hed; exact hed
  | cons x rest ih =>
    intro st hbl hhr hed
    rw [List.foldl_cons]
    have hx : '\n' ∉ x := hbl x (List.mem_cons_self _ _)
    have hrest : ∀ l ∈ rest, '\n' ∉ l :=
      fun l hl => hbl l (List.mem_cons_of_mem _ hl)
    obtain ⟨h1, h2⟩ := fenced_line_step_inv arb st x hx hhr hed
    exact ih (fenced_line_step arb st x) hrest h1 h2

/-- Helper: every edit produced from one fenced block has a nonempty hunk. -/
theorem process_fenced_body_hunk_ne (bp ap : Option (List Char))
    (block : List (List Char)) (hbl : ∀ l ∈ block, '\n' ∉ l) :
    ∀ e ∈ process_fenced_body bp ap block, e.hunk ≠ [] := by
  intro e he
  simp only [process_fenced_body] at he
  rw [List.mem_reverse] at he
  exact fenced_fold_hunk_ne _ block ⟨bp, ap, [], []⟩ hbl
    (fun l hl => absurd hl (List.not_mem_nil l))
    (fun e2 he2 => absurd he2 (List.not_mem_nil e2)) e he

/-- Helper: `process_fenced_block` never emits an edit with an empty hunk
(on newline-free raw lines). -/
theorem process_fenced_block_lines_hunk_ne (blockRaw : List (List Char))
    (h : ∀ l ∈ blockRaw, '\n' ∉ l) :
    ∀ e ∈ process_fenced_block_lines blockRaw, e.hunk ≠ [] := by
  have hall : ∀ l ∈ blockRaw ++ [at_at_line], '\n' ∉ l := by
    intro l hl
    rcases List.mem_append.mp hl with h0 | h0
    · exact h l h0
    · rcases List.mem_cons.mp h0 with h1 | h1
      · rw [h1]; decide
      · exact absurd h1 (List.not_mem_nil l)
  simp only [process_fenced_block_lines]
  cases hb : blockRaw ++ [at_at_line] with
  | nil => exact process_fenced_body_hunk_ne none none _ (by rw [← hb]; exact hall)
  | cons b0 tl =>
    cases tl with
    | nil =>
      exact process_fenced_body_hunk_ne none none _ (by rw [← hb]; exact hall)
    | cons b1 rest =>
      rw [hb] at hall
      dsimp only
      by_cases hc : startsWithC dash_marker b0 = true ∧
          startsWithC plus_marker b1 = true
      · rw [if_pos hc]
        exact process_fenced_body_hunk_ne _ _ rest (by
          intro l hl
          exact hall l (List.mem_cons_of_mem _ (List.mem_cons_of_mem _ hl)))
      · rw [if_neg hc]
        exact process_fenced_body_hunk_ne none none _ hall

/-- Helper: the whole fence scanner only emits edits with nonempty hunks. -/
theorem scan_fenced_hunk_ne :
    ∀ (lines : List (List Char)) (mode : Option (List (List Char))),
      (∀ l ∈ lines, '\n' ∉ l) →
      (∀ acc, mode = some acc → ∀ l ∈ acc, '\n' ∉ l) →
      ∀ e ∈ scan_fenced_blocks mode lines, e.hunk ≠ [] := by
  intro lines
  induction lines with
  | nil =>
    intro mode _ hacc e he
    cases mode with
    | none => exact absurd he (List.not_mem_nil e)
    | some acc =>
      refine process_fenced_block_lines_hunk_ne acc.reverse ?_ e he
      intro l hl
      exact hacc acc rfl l (List.mem_reverse.mp hl)
  | cons x rest ih =>
    intro mode hlines hacc e he
    have hx : '\n' ∉ x := hlines x (List.mem_cons_self _ _)
    have hrest : ∀ l ∈ rest, '\n' ∉ l :=
      fun l hl => hlines l (List.mem_cons_of_mem _ hl)
    cases mode with
    | none =>
      rw [scan_fenced_blocks.eq_2] at he
      by_cases hf : startsWithC fence_diff_marker x = true
      · rw [hf] at he
        simp only [if_true] at he
        exact ih (some []) hrest (by
          intro acc hacc2 l hl
          cases Option.some.inj hacc2
          exact absurd hl (List.not_mem_nil l)) e he
      · rw [Bool.not_eq_true] at hf
        rw [hf] at he
        simp only [Bool.false_eq_true, if_false] at he
        exact ih none hrest (by intro acc hacc2; cases hacc2) e he
    | some acc =>
      have haccl : ∀ l ∈ acc, '\n' ∉ l := hacc acc rfl
      rw [scan_fenced_blocks.eq_4] at he
      by_cases hf : startsWithC fence_marker x = true
      · rw [hf] at he
        simp only [if_true] at he
        rcases List.mem_append.mp he with h0 | h0
        · refine process_fenced_block_lines_hunk_ne acc.reverse ?_ e h0
          intro l hl
          exact haccl l (List.mem_reverse.mp hl)
        · exact ih none hrest (by intro acc2 hacc2; cases hacc2) e h0
      · rw [Bool.not_eq_true] at hf
        rw [hf] at he
        simp only [Bool.false_eq_true, if_false] at he
        refine ih (some (x :: acc)) hrest ?_ e he
        intro acc2 hacc2 l hl
        cases Option.some.inj hacc2
        rcases List.mem_cons.mp hl with h1 | h1
        · rw [h1]; exact hx
        · exact haccl l h1

/-- Helper: every hunk `get_edit_hunks` returns is nonempty. -/
theorem get_edit_hunks_hunk_ne (content : List Char) :
    ∀ e ∈ get_edit_hunks content, e.hunk ≠ [] := by
  intro e he
  exact scan_fenced_hunk_ne (rustLines content) none
    (fun l hl => rustLines_no_newline content l hl)
    (by intro acc hacc; cases hacc) e he

/-- Helper: hunk-index bounds of the enumerated edit loop. -/
theorem edit_hunks_go_bounds (fs : FileSys) :
    ∀ (es : List Edit) (idx : Nat) (bs : List DiffBlock),
      edit_hunks_go fs idx es = Except.ok bs →
      ∀ b ∈ bs, idx ≤ b.hunk_idx ∧ b.hunk_idx < idx + es.length := by
  intro es
  induction es with
  | nil =>
    intro idx bs h b hb
    have hbs : ([] : List DiffBlock) = bs := Except.ok.inj h
    rw [← hbs] at hb
    exact absurd hb (List.not_mem_nil b)
  | cons e rest ih =>
    intro idx bs h b hb
    rw [edit_hunks_go.eq_2] at h
    cases he : edit_to_diff_blocks fs idx e with
    | error m => rw [he] at h; exact absurd h (by simp)
    | ok bs1 =>
      rw [he] at h
      dsimp only at h
      cases hr : edit_hunks_go fs (idx + 1) rest with
      | error m => rw [hr] at h; exact absurd h (by simp)
      | ok more =>
        rw [hr] at h
        dsimp only at h
        have hbs := Except.ok.inj h
        rw [← hbs] at hb
        rw [List.length_cons]
        rcases List.mem_append.mp hb with h0 | h0
        · have hidx := edit_to_diff_blocks_idx fs idx e bs1 he b h0
          rw [hidx]
          omega
        · have := ih (idx + 1) more hr b h0
          omega

/-- Helper: with nonempty hunks every edit contributes at least one block,
so the edit count never exceeds the block count. -/
theorem edit_hunks_go_length (fs : FileSys) :
    ∀ (es : List Edit) (idx : Nat) (bs : List DiffBlock),
      (∀ e ∈ es, e.hunk ≠ []) →
      edit_hunks_go fs idx es = Except.ok bs →
      es.length ≤ bs.length := by
  intro es
  induction es with
  | nil => intro idx bs _ _; simp
  | cons e rest ih =>
    intro idx bs hne h
    rw [edit_hunks_go.eq_2] at h
    cases he : edit_to_diff_blocks fs idx e with
    | error m => rw [he] at h; exact absurd h (by simp)
    | ok bs1 =>
      rw [he] at h
      dsimp only at h
      cases hr : edit_hunks_go fs (idx + 1) rest with
      | error m => rw [hr] at h; exact absurd h (by simp)
      | ok more =>
        rw [hr] at h
        dsimp only at h
        have hbs := Except.ok.inj h
        have h1 : bs1 ≠ [] := edit_to_diff_blocks_ne_nil fs idx e bs1
          (hne e (List.mem_cons_self _ _)) he
        have h2 : rest.length ≤ more.length :=
          ih (idx + 1) more (fun e2 he2 => hne e2 (List.mem_cons_of_mem _ he2)) hr
        have h3 : 1 ≤ bs1.length := List.length_pos.mpr h1
        rw [← hbs, List.length_append, List.length_cons]
        omega

/-- Helper: the grouping fold writes only the edit's own header paths into
blocks. -/
theorem edit_build_fold_names (idx : Nat) (action : String) (bp ap : List Char)
    (fl : List (List Char)) (ha : Bool) (l : List (List Char)) :
    ∀ st : EditBuildState,
      (∀ b ∈ st.blocksRev, b.file_name_before = bp ∧ b.file_name_after = ap) →
      ∀ b ∈ (l.foldl (edit_build_step idx action bp ap fl ha) st).blocksRev,
        b.file_name_before = bp ∧ b.file_name_after = ap := by
  induction l with
  | nil => intro st hst; exact hst
  | cons x l ih =>
    intro st hst
    rw [List.foldl_cons]
    apply ih
    intro b hb
    simp only [edit_build_step] at hb
    by_cases hx : startsWithC ['-'] x = true ∨ startsWithC ['+'] x = true
    · rw [if_pos hx] at hb
      exact hst b hb
    · rw [if_neg hx] at hb
      by_cases hmp : st.block_has_minus_plus = true
      · simp only [hmp, if_true] at hb
        rcases List.mem_cons.mp hb with h0 | h0
        · rw [h0]; exact ⟨rfl, rfl⟩
        · exact hst b h0
      · rw [Bool.not_eq_true] at hmp
        simp only [hmp, Bool.false_eq_true, if_false] at hb
        exact hst b hb

/-- Helper: every block of one edit carries that edit's header paths. -/
theorem edit_to_diff_blocks_names (fs : FileSys) (idx : Nat) (e : Edit)
    (bs : List DiffBlock) (h : edit_to_diff_blocks fs idx e = Except.ok bs) :
    ∀ b ∈ bs, e.before_path = some b.file_name_before ∧
      e.after_path = some b.file_name_after := by
  obtain ⟨bpo, apo, hk⟩ := e
  cases bpo with
  | none => exact absurd h (by simp [edit_to_diff_blocks])
  | some bp =>
    cases apo with
    | none => exact absurd h (by simp [edit_to_diff_blocks])
    | some ap =>
      simp only [edit_to_diff_blocks] at h
      by_cases h1 : bp = devnull
      · rw [if_pos h1] at h
        have hbs := Except.ok.inj h
        intro b hb
        rw [← hbs] at hb
        rcases List.mem_cons.mp hb with h0 | h0
        · rw [h0]; exact ⟨rfl, rfl⟩
        · exact absurd h0 (List.not_mem_nil b)
      · rw [if_neg h1] at h
        by_cases h2 : ap = devnull
        · rw [if_pos h2] at h
          have hbs := Except.ok.inj h
          intro b hb
          rw [← hbs] at hb
          rcases List.mem_cons.mp hb with h0 | h0
          · rw [h0]; exact ⟨rfl, rfl⟩
          · exact absurd h0 (List.not_mem_nil b)
        · rw [if_neg h2] at h
          by_cases h3 : bp ≠ ap ∧ (fs ap).isSome = true
          · rw [if_pos h3] at h
            exact absurd h (by simp)
          · rw [if_neg h3] at h
            cases hfl : fs bp with
            | none => rw [hfl] at h; exact absurd h (by simp)
            | some file_lines =>
              rw [hfl] at h
              dsimp only at h
              have hfold := edit_build_fold_names idx
                (if bp ≠ ap then "rename" else "edit") bp ap file_lines
                (hk.any (fun x => !(startsWithC [' '] x))) hk
                ⟨[], [], false⟩ (by intro b hb; exact absurd hb (List.not_mem_nil b))
              cases hcur : (hk.foldl (edit_build_step idx
                  (if bp ≠ ap then "rename" else "edit") bp ap file_lines
                  (hk.any (fun x => !(startsWithC [' '] x))))
                  ⟨[], [], false⟩).curRev.isEmpty with
              | true =>
                rw [hcur] at h
                simp only [if_true] at h
                have hbs := Except.ok.inj h
                intro b hb
                rw [← hbs] at hb
                obtain ⟨hbf, haf⟩ := hfold b (List.mem_reverse.mp hb)
                rw [hbf, haf]
                exact ⟨rfl, rfl⟩
              | false =>
                rw [hcur] at h
                simp only [Bool.false_eq_true, if_false] at h
                have hbs := Except.ok.inj h
                intro b hb
                rw [← hbs] at hb
                have hmem := List.mem_reverse.mp hb
                rcases List.mem_cons.mp hmem with h0 | h0
                · rw [h0]; exact ⟨rfl, rfl⟩
                · obtain ⟨hbf, haf⟩ := hfold b h0
                  rw [hbf, haf]
                  exact ⟨rfl, rfl⟩

/-- Helper: every block of the edit loop carries header paths of one of the
edits. -/
theorem edit_hunks_go_names (fs : FileSys) :
    ∀ (es : List Edit) (idx : Nat) (bs : List DiffBlock),
      edit_hunks_go fs idx es = Except.ok bs →
      ∀ b ∈ bs, b.file_name_before ∈ edits_paths es ∧
        b.file_name_after ∈ edits_paths es := by
  intro es
  induction es with
  | nil =>
    intro idx bs h b hb
    have hbs : ([] : List DiffBlock) = bs := Except.ok.inj h
    rw [← hbs] at hb
    exact absurd hb (List.not_mem_nil b)
  | cons e rest ih =>
    intro idx bs h b hb
    rw [edit_hunks_go.eq_2] at h
    cases he : edit_to_diff_blocks fs idx e with
    | error m => rw [he] at h; exact absurd h (by simp)
    | ok bs1 =>
      rw [he] at h
      dsimp only at h
      cases hr : edit_hunks_go fs (idx + 1) rest with
      | error m => rw [hr] at h; exact absurd h (by simp)
      | ok more =>
        rw [hr] at h
        dsimp only at h
        have hbs := Except.ok.inj h
        rw [← hbs] at hb
        have hsplit : edits_paths (e :: rest) = edit_paths e ++ edits_paths rest := by
          simp [edits_paths]
        rw [hsplit]
        rcases List.mem_append.mp hb with h0 | h0
        · obtain ⟨hbf, haf⟩ := edit_to_diff_blocks_names fs idx e bs1 he b h0
          constructor
          · apply List.mem_append_left
            simp [edit_paths, ← hbf]
          · apply List.mem_append_left
            simp [edit_paths, ← haf]
        · obtain ⟨hbf, haf⟩ := ih (idx + 1) more hr b h0
          exact ⟨List.mem_append_right _ hbf, List.mem_append_right _ haf⟩

/-- Helper: writing a group back into a list that holds no block of that
hunk index changes nothing. -/
theorem subst_group_no_key (i : Nat) :
    ∀ (l : List DiffBlock) (news : List DiffBlock),
      (∀ b ∈ l, b.hunk_idx ≠ i) → subst_group i news l = l := by
  intro l
  induction l with
  | nil => intro news _; cases news <;> rfl
  | cons b rest ih =>
    intro news h
    have hb := h b (List.mem_cons_self _ _)
    have hrest := fun x hx => h x (List.mem_cons_of_mem _ hx)
    cases news with
    | nil => rw [subst_group.eq_3, if_neg hb, ih [] hrest]
    | cons n ns => rw [subst_group.eq_2, if_neg hb, ih (n :: ns) hrest]

/-- Helper: a write-back distributes over an append whose right half holds
no block of the hunk index. -/
theorem subst_group_append_right (i : Nat) :
    ∀ (l1 l2 : List DiffBlock) (news : List DiffBlock),
      (∀ b ∈ l2, b.hunk_idx ≠ i) →
      subst_group i news (l1 ++ l2) = subst_group i news l1 ++ l2 := by
  intro l1
  induction l1 with
  | nil =>
    intro l2 news h
    rw [List.nil_append]
    rw [subst_group_no_key i l2 news h]
    show l2 = subst_group i news [] ++ l2
    cases news <;> rfl
  | cons b rest ih =>
    intro l2 news h
    by_cases hb : b.hunk_idx = i
    · cases news with
      | nil =>
        rw [List.cons_append, subst_group.eq_3, subst_group.eq_3,
          if_pos hb, if_pos hb]
        rw [List.cons_append, ih l2 [] h]
      | cons n ns =>
        rw [List.cons_append, subst_group.eq_2, subst_group.eq_2,
          if_pos hb, if_pos hb]
        rw [List.cons_append, ih l2 ns h]
    · cases news with
      | nil =>
        rw [List.cons_append, subst_group.eq_3, subst_group.eq_3,
          if_neg hb, if_neg hb]
        rw [List.cons_append, ih l2 [] h]
      | cons n ns =>
        rw [List.cons_append, subst_group.eq_2, subst_group.eq_2,
          if_neg hb, if_neg hb]
        rw [List.cons_append, ih l2 (n :: ns) h]

/-- Helper: a write-back distributes over an append whose left half holds
no block of the hunk index. -/
theorem subst_group_append_left (i : Nat) :
    ∀ (l1 l2 : List DiffBlock) (news : List DiffBlock),
      (∀ b ∈ l1, b.hunk_idx ≠ i) →
      subst_group i news (l1 ++ l2) = l1 ++ subst_group i news l2 := by
  intro l1
  induction l1 with
  | nil => intro l2 news _; rfl
  | cons b rest ih =>
    intro l2 news h
    have hb := h b (List.mem_cons_self _ _)
    have hrest := fun x hx => h x (List.mem_cons_of_mem _ hx)
    cases news with
    | nil =>
      rw [List.cons_append, subst_group.eq_3, if_neg hb, ih l2 [] hrest,
        List.cons_append]
    | cons n ns =>
      rw [List.cons_append, subst_group.eq_2, if_neg hb, ih l2 (n :: ns) hrest,
        List.cons_append]

/-- Helper: a location step for an index absent from the right half only
touches the left half. -/
theorem search_step_left (l1 l2 : List DiffBlock) (i : Nat)
    (h : ∀ b ∈ l2, b.hunk_idx ≠ i) :
    search_step (l1 ++ l2) i = search_step l1 i ++ l2 := by
  have hfil : l2.filter (fun b => b.hunk_idx == i) = [] := by
    rw [List.filter_eq_nil_iff]
    intro b hb
    simp [h b hb]
  simp only [search_step]
  rw [List.filter_append, hfil, List.append_nil]
  by_cases hg : ((l1.filter (fun b => b.hunk_idx == i)).isEmpty = true)
  · rw [if_pos hg, if_pos hg]
  · rw [if_neg hg, if_neg hg]
    exact subst_group_append_right i l1 l2 _ h

/-- Helper: a location step for an index absent from the left half only
touches the right half. -/
theorem search_step_right (l1 l2 : List DiffBlock) (i : Nat)
    (h : ∀ b ∈ l1, b.hunk_idx ≠ i) :
    search_step (l1 ++ l2) i = l1 ++ search_step l2 i := by
  have hfil : l1.filter (fun b => b.hunk_idx == i) = [] := by
    rw [List.filter_eq_nil_iff]
    intro b hb
    simp [h b hb]
  simp only [search_step]
  rw [List.filter_append, hfil, List.nil_append]
  by_cases hg : ((l2.filter (fun b => b.hunk_idx == i)).isEmpty = true)
  · rw [if_pos hg, if_pos hg]
  · rw [if_neg hg, if_neg hg]
    exact subst_group_append_left i l1 l2 _ h

/-- Helper: a location step for an index held by no block at all is the
identity. -/
theorem search_step_no_key (bs : List DiffBlock) (i : Nat)
    (h : ∀ b ∈ bs, b.hunk_idx ≠ i) : search_step bs i = bs := by
  have hfil : bs.filter (fun b => b.hunk_idx == i) = [] := by
    rw [List.filter_eq_nil_iff]
    intro b hb
    simp [h b hb]
  simp only [search_step]
  rw [hfil]
  rfl

/-- Helper: filtering a shifted block list by a shifted index is the shift
of the filtered list. -/
theorem filter_shift (k j : Nat) (l : List DiffBlock) :
    (l.map (shiftB k)).filter (fun b => b.hunk_idx == k + j) =
      (l.filter (fun b => b.hunk_idx == j)).map (shiftB k) := by
  rw [List.filter_map]
  congr 1
  apply List.filter_congr
  intro b _
  show (b.hunk_idx + k == k + j) = (b.hunk_idx == j)
  by_cases hbj : b.hunk_idx = j
  · rw [hbj, Nat.add_comm]
    simp
  · rw [Bool.eq_iff_iff]
    simp only [beq_iff_eq]
    omega

/-- Helper: the per-group location pass ignores `hunk_idx`, so it commutes
with the shift. -/
theorem process_block_group_shift (k : Nat) :
    ∀ (g : List DiffBlock) (s : Nat),
      process_block_group (g.map (shiftB k)) s =
        (process_block_group g s).map (shiftB k) := by
  intro g
  induction g with
  | nil => intro s; rfl
  | cons b rest ih =>
    intro s
    simp only [List.map_cons, process_block_group, shiftB]
    rw [ih]

/-- Helper: the write-back commutes with the shift of both list and index. -/
theorem subst_group_shift (k j : Nat) :
    ∀ (l news : List DiffBlock),
      subst_group (k + j) (news.map (shiftB k)) (l.map (shiftB k)) =
        (subst_group j news l).map (shiftB k) := by
  intro l
  induction l with
  | nil => intro news; cases news <;> rfl
  | cons b rest ih =>
    intro news
    by_cases hb : b.hunk_idx = j
    · have hb2 : (shiftB k b).hunk_idx = k + j := by
        show b.hunk_idx + k = k + j
        omega
      cases news with
      | nil =>
        simp only [List.map_nil, List.map_cons]
        rw [subst_group.eq_3, subst_group.eq_3, if_pos hb2, if_pos hb]
        rw [List.map_cons]
        have := ih []
        simp only [List.map_nil] at this
        rw [this]
      | cons n ns =>
        simp only [List.map_cons]
        rw [subst_group.eq_2, subst_group.eq_2, if_pos hb2, if_pos hb]
        rw [List.map_cons, ih ns]
    · have hb2 : (shiftB k b).hunk_idx ≠ k + j := by
        show b.hunk_idx + k ≠ k + j
        omega
      cases news with
      | nil =>
        simp only [List.map_nil, List.map_cons]
        rw [subst_group.eq_3, subst_group.eq_3, if_neg hb2, if_neg hb]
        rw [List.map_cons]
        have := ih []
        simp only [List.map_nil] at this
        rw [this]
      | cons n ns =>
        simp only [List.map_cons]
        rw [subst_group.eq_2, subst_group.eq_2, if_neg hb2, if_neg hb]
        have hns := ih (n :: ns)
        rw [List.map_cons] at hns
        rw [hns, List.map_cons]

/-- Helper: one location step commutes with the shift of both list and
index. -/
theorem search_step_shift (k j : Nat) (l : List DiffBlock) :
    search_step (l.map (shiftB k)) (k + j) = (search_step l j).map (shiftB k) := by
  simp only [search_step]
  rw [filter_shift]
  by_cases hg : ((l.filter (fun b => b.hunk_idx == j)).isEmpty = true)
  · have hg2 : (((l.filter (fun b => b.hunk_idx == j)).map (shiftB k)).isEmpty
        = true) := by
      rw [List.isEmpty_iff] at hg ⊢
      rw [hg]
      rfl
    rw [if_pos hg2, if_pos hg]
  · have hg2 : ¬ (((l.filter (fun b => b.hunk_idx == j)).map (shiftB k)).isEmpty
        = true) := by
      intro hc
      rw [List.isEmpty_iff, List.map_eq_nil_iff] at hc
      exact hg (by rw [List.isEmpty_iff]; exact hc)
    rw [if_neg hg2, if_neg hg]
    rw [process_block_group_shift, subst_group_shift]

/-- Helper: the per-group location pass rewrites only `diff_lines`, never the
shell of a block. -/
theorem process_block_group_shell :
    ∀ (g : List DiffBlock) (s : Nat),
      (process_block_group g s).map blockShell = g.map blockShell := by
  intro g
  induction g with
  | nil => intro s; rfl
  | cons b rest ih =>
    intro s
    simp only [process_block_group, List.map_cons]
    rw [ih]
    congr 1

/-- Helper: a write-back whose new group has the shells of the filtered
group preserves every shell in place. -/
theorem subst_group_shell (i : Nat) :
    ∀ (bs news : List DiffBlock),
      news.map blockShell =
        (bs.filter (fun b => b.hunk_idx == i)).map blockShell →
      (subst_group i news bs).map blockShell = bs.map blockShell := by
  intro bs
  induction bs with
  | nil => intro news _; cases news <;> rfl
  | cons b rest ih =>
    intro news h
    by_cases hb : b.hunk_idx = i
    · have hfb : (b.hunk_idx == i) = true := by simp [hb]
      simp only [List.filter_cons, hfb, if_true, List.map_cons] at h
      cases news with
      | nil => simp at h
      | cons n ns =>
        rw [List.map_cons] at h
        obtain ⟨h1, h2⟩ := List.cons.inj h
        rw [subst_group.eq_2, if_pos hb]
        rw [List.map_cons, List.map_cons, h1, ih ns h2]
    · have hfb : (b.hunk_idx == i) = false := by simp [hb]
      simp only [List.filter_cons, hfb, Bool.false_eq_true, if_false] at h
      cases news with
      | nil =>
        rw [subst_group.eq_3, if_neg hb]
        rw [List.map_cons, List.map_cons, ih [] h]
      | cons n ns =>
        rw [subst_group.eq_2, if_neg hb]
        rw [List.map_cons, List.map_cons, ih (n :: ns) h]

/-- Helper: one location step preserves every block's shell in place. -/
theorem search_step_shell (bs : List DiffBlock) (i : Nat) :
    (search_step bs i).map blockShell = bs.map blockShell := by
  simp only [search_step]
  by_cases hg : ((bs.filter (fun b => b.hunk_idx == i)).isEmpty = true)
  · rw [if_pos hg]
  · rw [if_neg hg]
    apply subst_group_shell
    rw [process_block_group_shell]

/-- Helper: the whole location fold preserves every block's shell in place. -/
theorem search_fold_shell (is : List Nat) :
    ∀ bs : List DiffBlock,
      ((is.foldl search_step bs).map blockShell) = bs.map blockShell := by
  induction is with
  | nil => intro bs; rfl
  | cons i is ih =>
    intro bs
    rw [List.foldl_cons, ih, search_step_shell]

/-- Helper: the location fold preserves every hunk-index bound. -/
theorem search_fold_hunk_bound (is : List Nat) (bs : List DiffBlock) (c : Nat)
    (h : ∀ b ∈ bs, b.hunk_idx < c) :
    ∀ b ∈ is.foldl search_step bs, b.hunk_idx < c := by
  intro b hb
  have hsh := search_fold_shell is bs
  have hmem : blockShell b ∈ bs.map blockShell := by
    rw [← hsh]
    exact List.mem_map_of_mem blockShell hb
  rcases List.mem_map.mp hmem with ⟨b2, hb2, heq⟩
  have h5 : b2.hunk_idx = b.hunk_idx := congrArg (fun p => p.2.2.2.1) heq
  rw [← h5]
  exact h b2 hb2

/-- Helper: location steps for indexes below the right half's range leave
the right half untouched. -/
theorem search_fold_left_low (c : Nat) :
    ∀ (is : List Nat) (l1 l2 : List DiffBlock),
      (∀ i ∈ is, i < c) → (∀ b ∈ l2, c ≤ b.hunk_idx) →
      is.foldl search_step (l1 ++ l2) = (is.foldl search_step l1) ++ l2 := by
  intro is
  induction is with
  | nil => intro l1 l2 _ _; rfl
  | cons i is ih =>
    intro l1 l2 his hl2
    rw [List.foldl_cons, List.foldl_cons]
    rw [search_step_left l1 l2 i (fun b hb => by
      have h1 := hl2 b hb
      have h2 := his i (List.mem_cons_self _ _)
      omega)]
    exact ih (search_step l1 i) l2
      (fun x hx => his x (List.mem_cons_of_mem _ hx)) hl2

/-- Helper: location steps for indexes above the left half's range leave
the left half untouched. -/
theorem search_fold_right_high (c : Nat) :
    ∀ (is : List Nat) (l1 l2 : List DiffBlock),
      (∀ i ∈ is, c ≤ i) → (∀ b ∈ l1, b.hunk_idx < c) →
      is.foldl search_step (l1 ++ l2) = l1 ++ is.foldl search_step l2 := by
  intro is
  induction is with
  | nil => intro l1 l2 _ _; rfl
  | cons i is ih =>
    intro l1 l2 his hl1
    rw [List.foldl_cons, List.foldl_cons]
    rw [search_step_right l1 l2 i (fun b hb => by
      have h1 := hl1 b hb
      have h2 := his i (List.mem_cons_self _ _)
      omega)]
    exact ih l1 (search_step l2 i)
      (fun x hx => his x (List.mem_cons_of_mem _ hx)) hl1

/-- Helper: the location fold commutes with the shift of both the blocks and
the visited indexes. -/
theorem search_fold_shift (k : Nat) :
    ∀ (is : List Nat) (l : List DiffBlock),
      (is.map (fun i => k + i)).foldl search_step (l.map (shiftB k)) =
        (is.foldl search_step l).map (shiftB k) := by
  intro is
  induction is with
  | nil => intro l; rfl
  | cons i is ih =>
    intro l
    rw [List.map_cons, List.foldl_cons, List.foldl_cons,
      search_step_shift k i l, ih]

/-- Helper: location steps for indexes above every block's range do
nothing. -/
theorem search_fold_stable (c : Nat) :
    ∀ (is : List Nat) (bs : List DiffBlock),
      (∀ i ∈ is, c ≤ i) → (∀ b ∈ bs, b.hunk_idx < c) →
      is.foldl search_step bs = bs := by
  intro is
  induction is with
  | nil => intro bs _ _; rfl
  | cons i is ih =>
    intro bs his hbs
    rw [List.foldl_cons]
    rw [search_step_no_key bs i (fun b hb => by
      have h1 := hbs b hb
      have h2 := his i (List.mem_cons_self _ _)
      omega)]
    exact ih bs (fun x hx => his x (List.mem_cons_of_mem _ hx)) hbs

/-- Helper: enlarging the index range beyond every block's hunk index does
not change the location fold. -/
theorem search_range_stable (bs : List DiffBlock) (c : Nat)
    (hb : ∀ b ∈ bs, b.hunk_idx < c) :
    ∀ m, c ≤ m →
      (List.range m).foldl search_step bs =
        (List.range c).foldl search_step bs := by
  intro m hm
  have hsplit : m = c + (m - c) := by omega
  rw [hsplit, List.range_add, List.foldl_append]
  apply search_fold_stable c
  · intro i hi
    rcases List.mem_map.mp hi with ⟨x, _, hx⟩
    omega
  · exact search_fold_hunk_bound (List.range c) bs c hb

/-- Helper: the location pass over concatenated block lists with separated
hunk-index ranges acts on the halves independently. -/
theorem search_append (B1 B2 : List DiffBlock) (k c2 : Nat)
    (h1 : ∀ b ∈ B1, b.hunk_idx < k) (hk : k ≤ B1.length)
    (h2 : ∀ b ∈ B2, b.hunk_idx < c2) (hc2 : c2 ≤ B2.length) :
    search_diff_block_text_location (B1 ++ B2.map (shiftB k)) =
      search_diff_block_text_location B1 ++
        (search_diff_block_text_location B2).map (shiftB k) := by
  unfold search_diff_block_text_location
  rw [List.length_append, List.length_map]
  have hsplit : B1.length + B2.length = k + (B1.length + B2.length - k) := by
    omega
  rw [hsplit, List.range_add, List.foldl_append]
  have hhigh : ∀ b ∈ B2.map (shiftB k), k ≤ b.hunk_idx := by
    intro b hb
    rcases List.mem_map.mp hb with ⟨b0, _, hb0⟩
    rw [← hb0]
    show k ≤ b0.hunk_idx + k
    omega
  rw [search_fold_left_low k (List.range k) B1 (B2.map (shiftB k))
    (fun i hi => List.mem_range.mp hi) hhigh]
  rw [search_fold_right_high k
    ((List.range (B1.length + B2.length - k)).map (fun i => k + i))
    ((List.range k).foldl search_step B1) (B2.map (shiftB k))
    (fun i hi => by rcases List.mem_map.mp hi with ⟨x, _, hx⟩; omega)
    (search_fold_hunk_bound (List.range k) B1 k h1)]
  rw [search_fold_shift k (List.range (B1.length + B2.length - k)) B2]
  rw [search_range_stable B1 k h1 B1.length hk]
  rw [search_range_stable B2 c2 h2 (B1.length + B2.length - k) (by omega)]
  rw [search_range_stable B2 c2 h2 B2.length hc2]

/-- Helper: `shiftB` leaves the action unchanged. -/
theorem shiftB_action (k : Nat) (b : DiffBlock) :
    (shiftB k b).action = b.action := rfl

/-- Helper: `shiftB` leaves the diff lines unchanged. -/
theorem shiftB_diff_lines (k : Nat) (b : DiffBlock) :
    (shiftB k b).diff_lines = b.diff_lines := rfl

/-- Helper: `shiftB` leaves the file lines unchanged. -/
theorem shiftB_file_lines (k : Nat) (b : DiffBlock) :
    (shiftB k b).file_lines = b.file_lines := rfl

/-- Helper: the grouping fold flushes independently at a boundary between
separated hunk-index ranges. -/
theorem split_go_append (k : Nat) :
    ∀ (l1 l2 : List DiffBlock) (j : Nat) (run : List DiffBlock),
      j < k →
      (∀ b ∈ l1, b.hunk_idx < k) → (∀ b ∈ l2, k ≤ b.hunk_idx) →
      split_blocks_go (some (j, run)) (l1 ++ l2) =
        split_blocks_go (some (j, run)) l1 ++ split_blocks_go none l2 := by
  intro l1
  induction l1 with
  | nil =>
    intro l2 j run hj _ h2
    rw [List.nil_append]
    cases l2 with
    | nil =>
      rw [split_blocks_go.eq_3, split_blocks_go.eq_1, List.append_nil]
    | cons b rest =>
      have hb : b.hunk_idx ≠ (j, run).1 := by
        have := h2 b (List.mem_cons_self _ _)
        show b.hunk_idx ≠ j
        omega
      rw [split_blocks_go.eq_4, if_neg hb, split_blocks_go.eq_3,
        split_blocks_go.eq_2]
  | cons b rest1 ih =>
    intro l2 j run hj h1 h2
    have hrest : ∀ x ∈ rest1, x.hunk_idx < k :=
      fun x hx => h1 x (List.mem_cons_of_mem _ hx)
    rw [List.cons_append, split_blocks_go.eq_4, split_blocks_go.eq_4]
    by_cases hb : b.hunk_idx = (j, run).1
    · rw [if_pos hb, if_pos hb]
      exact ih l2 j (b :: run) hj hrest h2
    · rw [if_neg hb, if_neg hb]
      rw [ih l2 b.hunk_idx [b] (h1 b (List.mem_cons_self _ _)) hrest h2]
      rw [List.append_assoc]

/-- Helper: the block-splitting pass acts independently on concatenated
lists with separated hunk-index ranges. -/
theorem splitting_append (k : Nat) (l1 l2 : List DiffBlock)
    (h1 : ∀ b ∈ l1, b.hunk_idx < k) (h2 : ∀ b ∈ l2, k ≤ b.hunk_idx) :
    splitting_diff_blocks (l1 ++ l2) =
      splitting_diff_blocks l1 ++ splitting_diff_blocks l2 := by
  cases l1 with
  | nil => rfl
  | cons b rest =>
    show split_blocks_go none (b :: (rest ++ l2)) = _
    rw [split_blocks_go.eq_2]
    show _ = split_blocks_go none (b :: rest) ++ splitting_diff_blocks l2
    rw [split_blocks_go.eq_2]
    exact split_go_append k rest l2 b.hunk_idx [b]
      (h1 b (List.mem_cons_self _ _))
      (fun x hx => h1 x (List.mem_cons_of_mem _ hx)) h2

/-- Helper: the all-context re-diff fold ignores `hunk_idx`, so it commutes
with the shift. -/
theorem split_space_go_shift (k : Nat) (b : DiffBlock) :
    ∀ (drs : List DiffRes) (ln : Nat) (curRev : List DiffLine),
      split_space_go (shiftB k b) ln curRev drs =
        (split_space_go b ln curRev drs).map (shiftB k) := by
  intro drs
  induction drs with
  | nil =>
    intro ln curRev
    simp only [split_space_go]
    by_cases hc : curRev.isEmpty = true
    · rw [if_pos hc, if_pos hc]
      rfl
    · rw [if_neg hc, if_neg hc]
      rfl
  | cons d rest ih =>
    intro ln curRev
    cases d with
    | left l =>
      simp only [split_space_go]
      exact ih _ _
    | right r =>
      simp only [split_space_go]
      exact ih _ _
    | both l =>
      simp only [split_space_go]
      by_cases hc : curRev.isEmpty = true
      · rw [if_pos hc, if_pos hc]
        exact ih _ _
      · rw [if_neg hc, if_neg hc, List.map_cons, ih _ _]
        rfl

/-- Helper: one group's processing commutes with the shift. -/
theorem process_run_shift (k : Nat) (run : List DiffBlock) :
    process_run (run.map (shiftB k)) = (process_run run).map (shiftB k) := by
  cases run with
  | nil => rfl
  | cons b rest =>
    cases rest with
    | nil =>
      simp only [List.map_cons, List.map_nil, process_run, shiftB_action,
        shiftB_diff_lines, shiftB_file_lines]
      by_cases ha : b.action = "edit"
      · rw [if_pos ha, if_pos ha]
        by_cases hsp : (b.diff_lines.all
            (fun x => x.line_type == LineType.Space)) = true
        · rw [if_pos hsp, if_pos hsp]
          exact split_space_go_shift k b _ 0 []
        · rw [if_neg hsp, if_neg hsp]
          rfl
      · rw [if_neg ha, if_neg ha]
        rfl
    | cons b2 rest2 =>
      simp only [List.map_cons, process_run]

/-- Helper: the grouping fold commutes with the shift of blocks and state. -/
theorem split_go_shift (k : Nat) :
    ∀ (l : List DiffBlock) (st : Option (Nat × List DiffBlock)),
      split_blocks_go
          (st.map (fun p => (p.1 + k, p.2.map (shiftB k))))
          (l.map (shiftB k)) =
        (split_blocks_go st l).map (shiftB k) := by
  intro l
  induction l with
  | nil =>
    intro st
    cases st with
    | none => rfl
    | some p =>
      obtain ⟨j, run⟩ := p
      show split_blocks_go (some (j + k, run.map (shiftB k))) [] = _
      rw [split_blocks_go.eq_3, split_blocks_go.eq_3]
      dsimp only
      rw [← List.map_reverse, process_run_shift]
  | cons b rest ih =>
    intro st
    cases st with
    | none =>
      rw [List.map_cons]
      show split_blocks_go none (shiftB k b :: rest.map (shiftB k)) = _
      rw [split_blocks_go.eq_2, split_blocks_go.eq_2]
      exact ih (some (b.hunk_idx, [b]))
    | some p =>
      obtain ⟨j, run⟩ := p
      rw [List.map_cons]
      show split_blocks_go (some (j + k, run.map (shiftB k)))
          (shiftB k b :: rest.map (shiftB k)) = _
      rw [split_blocks_go.eq_4, split_blocks_go.eq_4]
      dsimp only
      by_cases hb : b.hunk_idx = j
      · have hb2 : (shiftB k b).hunk_idx = j + k := by
          show b.hunk_idx + k = j + k
          omega
        rw [if_pos hb2, if_pos hb]
        exact ih (some (j, b :: run))
      · have hb2 : (shiftB k b).hunk_idx ≠ j + k := by
          show b.hunk_idx + k ≠ j + k
          omega
        rw [if_neg hb2, if_neg hb]
        rw [List.map_append, ← List.map_reverse, process_run_shift]
        rw [show ((shiftB k b).hunk_idx = b.hunk_idx + k) from rfl]
        exact congrArg _ (ih (some (b.hunk_idx, [b])))

/-- Helper: the block-splitting pass commutes with the shift. -/
theorem splitting_shift (k : Nat) (l : List DiffBlock) :
    splitting_diff_blocks (l.map (shiftB k)) =
      (splitting_diff_blocks l).map (shiftB k) := by
  exact split_go_shift k l none

/-- Helper: normalisation never reads `hunk_idx`, so it commutes with the
shift. -/
theorem normalize_diff_block_shift (k : Nat) (b : DiffBlock) :
    normalize_diff_block (shiftB k b) =
      (normalize_diff_block b).map (shiftB k) := by
  simp only [normalize_diff_block, shiftB_diff_lines]
  by_cases he : b.diff_lines.isEmpty = true
  · rw [if_pos he, if_pos he]
    rfl
  · rw [if_neg he, if_neg he]
    split
    · rfl
    · rfl

/-- Helper: the normalisation loop commutes with the shift. -/
theorem normalize_all_shift (k : Nat) :
    ∀ l : List DiffBlock,
      normalize_all (l.map (shiftB k)) =
        (normalize_all l).map (List.map (shiftB k)) := by
  intro l
  induction l with
  | nil => rfl
  | cons b rest ih =>
    rw [List.map_cons, normalize_all.eq_2, normalize_all.eq_2,
      normalize_diff_block_shift]
    cases hb : normalize_diff_block b with
    | error m => rfl
    | ok b2 =>
      dsimp only [Except.map]
      rw [ih]
      cases hr : normalize_all rest with
      | error m => rfl
      | ok rest2 => rfl

/-- Helper: the normalisation loop distributes over appends of lists that
both normalise cleanly. -/
theorem normalize_all_append :
    ∀ (a b : List DiffBlock) (ra rb : List DiffBlock),
      normalize_all a = Except.ok ra → normalize_all b = Except.ok rb →
      normalize_all (a ++ b) = Except.ok (ra ++ rb) := by
  intro a
  induction a with
  | nil =>
    intro b ra rb ha hb
    have hra : ([] : List DiffBlock) = ra := Except.ok.inj ha
    rw [List.nil_append, ← hra, List.nil_append]
    exact hb
  | cons x a ih =>
    intro b ra rb ha hb
    rw [normalize_all.eq_2] at ha
    rw [List.cons_append, normalize_all.eq_2]
    cases hx : normalize_diff_block x with
    | error m => rw [hx] at ha; exact absurd ha (by simp)
    | ok x2 =>
      rw [hx] at ha
      dsimp only at ha
      cases hr : normalize_all a with
      | error m => rw [hr] at ha; exact absurd ha (by simp)
      | ok a2 =>
        rw [hr] at ha
        dsimp only at ha
        have hra := Except.ok.inj ha
        rw [ih b a2 rb hr hb]
        dsimp only
        rw [← hra, List.cons_append]

/-- Helper: the changed-edit-block filter distributes over appends. -/
theorem keep_edit_append (a b : List DiffBlock) :
    keep_edit_blocks_with_changes (a ++ b) =
      keep_edit_blocks_with_changes a ++ keep_edit_blocks_with_changes b := by
  simp only [keep_edit_blocks_with_changes]
  exact List.filter_append _ _

/-- Helper: the changed-edit-block filter commutes with the shift. -/
theorem keep_edit_shift (k : Nat) (l : List DiffBlock) :
    keep_edit_blocks_with_changes (l.map (shiftB k)) =
      (keep_edit_blocks_with_changes l).map (shiftB k) := by
  simp only [keep_edit_blocks_with_changes]
  rw [List.filter_map]
  congr 1

/-- Helper: a block's chunk never depends on its `hunk_idx`. -/
theorem diff_chunk_of_block_shift (k : Nat) (b : DiffBlock) :
    diff_chunk_of_block (shiftB k b) = diff_chunk_of_block b := rfl

/-- Helper: the chunk conversion distributes over appends. -/
theorem diff_chunks_append (a b : List DiffBlock) :
    diff_blocks_to_diff_chunks (a ++ b) =
      diff_blocks_to_diff_chunks a ++ diff_blocks_to_diff_chunks b := by
  simp only [diff_blocks_to_diff_chunks]
  exact List.filterMap_append _ _ _

/-- Helper: the chunk conversion is blind to the shift. -/
theorem diff_chunks_shift (k : Nat) (l : List DiffBlock) :
    diff_blocks_to_diff_chunks (l.map (shiftB k)) =
      diff_blocks_to_diff_chunks l := by
  simp only [diff_blocks_to_diff_chunks]
  rw [List.filterMap_map]
  congr 1

/-- Helper: the `.unique()` scan only consults membership of upcoming
elements in the seen list. -/
theorem unique_go_congr :
    ∀ (l : List DiffChunk) (s1 s2 : List DiffChunk),
      (∀ d ∈ l, s1.contains d = s2.contains d) →
      unique_keep_first_go s1 l = unique_keep_first_go s2 l := by
  intro l
  induction l with
  | nil => intro s1 s2 _; rfl
  | cons c rest ih =>
    intro s1 s2 h
    have hc := h c (List.mem_cons_self _ _)
    rw [unique_keep_first_go.eq_2, unique_keep_first_go.eq_2]
    cases hs : s1.contains c with
    | true =>
      have hs2 : s2.contains c = true := by rw [← hc]; exact hs
      rw [hs2, if_pos rfl, if_pos rfl]
      exact ih s1 s2 (fun d hd => h d (List.mem_cons_of_mem _ hd))
    | false =>
      have hs2 : s2.contains c = false := by rw [← hc]; exact hs
      rw [hs2, if_neg (by decide), if_neg (by decide)]
      congr 1
      refine ih (c :: s1) (c :: s2) ?_
      intro d hd
      rw [List.contains_cons, List.contains_cons,
        h d (List.mem_cons_of_mem _ hd)]

/-- Helper: `.unique()` over an append of elementwise-distinct lists is the
append of the two `.unique()` runs. -/
theorem unique_go_append_disjoint :
    ∀ (a b : List DiffChunk) (seen : List DiffChunk),
      (∀ c ∈ a, ∀ d ∈ b, c ≠ d) →
      (∀ d ∈ b, seen.contains d = false) →
      unique_keep_first_go seen (a ++ b) =
        unique_keep_first_go seen a ++ unique_keep_first_go [] b := by
  intro a
  induction a with
  | nil =>
    intro b seen _ hb
    rw [List.nil_append]
    show _ = unique_keep_first_go seen [] ++ _
    rw [unique_keep_first_go.eq_1, List.nil_append]
    apply unique_go_congr b seen []
    intro d hd
    rw [hb d hd]
    rfl
  | cons c a ih =>
    intro b seen hdisj hb
    rw [List.cons_append, unique_keep_first_go.eq_2, unique_keep_first_go.eq_2]
    cases hs : seen.contains c with
    | true =>
      rw [if_pos rfl, if_pos rfl]
      exact ih b seen (fun x hx => hdisj x (List.mem_cons_of_mem _ hx)) hb
    | false =>
      rw [if_neg (by decide), if_neg (by decide)]
      rw [List.cons_append]
      congr 1
      refine ih b (c :: seen) (fun x hx => hdisj x (List.mem_cons_of_mem _ hx))
        ?_
      intro d hd
      have hne : d ≠ c := fun hh =>
        (hdisj c (List.mem_cons_self _ _) d hd) hh.symm
      rw [List.contains_cons, hb d hd]
      simp [hne]

/-- Helper: `.unique()` of an append of elementwise-distinct chunk lists. -/
theorem unique_append_disjoint (a b : List DiffChunk)
    (hdisj : ∀ c ∈ a, ∀ d ∈ b, c ≠ d) :
    unique_keep_first (a ++ b) =
      unique_keep_first a ++ unique_keep_first b := by
  exact unique_go_append_disjoint a b [] hdisj (fun d _ => rfl)

/-- Helper: every block after the location pass has the shell of some input
block. -/
theorem search_shells (bs : List DiffBlock) :
    ∀ b ∈ search_diff_block_text_location bs,
      ∃ b2 ∈ bs, blockShell b = blockShell b2 := by
  intro b hb
  have hsh := search_fold_shell (List.range bs.length) bs
  have hmem : blockShell b ∈ bs.map blockShell := by
    rw [← hsh]
    exact List.mem_map_of_mem blockShell hb
  rcases List.mem_map.mp hmem with ⟨b2, hb2, heq⟩
  exact ⟨b2, hb2, heq.symm⟩

/-- Helper: every block the all-context re-diff emits has the shell of the
block it splits. -/
theorem split_space_go_shells (b : DiffBlock) :
    ∀ (drs : List DiffRes) (ln : Nat) (curRev : List DiffLine),
      ∀ x ∈ split_space_go b ln curRev drs, blockShell x = blockShell b := by
  intro drs
  induction drs with
  | nil =>
    intro ln curRev x hx
    simp only [split_space_go] at hx
    by_cases hc : curRev.isEmpty = true
    · rw [if_pos hc] at hx
      exact absurd hx (List.not_mem_nil x)
    · rw [if_neg hc] at hx
      rcases List.mem_cons.mp hx with h0 | h0
      · rw [h0]; rfl
      · exact absurd h0 (List.not_mem_nil x)
  | cons d rest ih =>
    intro ln curRev x hx
    cases d with
    | left l =>
      simp only [split_space_go] at hx
      exact ih _ _ x hx
    | right r =>
      simp only [split_space_go] at hx
      exact ih _ _ x hx
    | both l =>
      simp only [split_space_go] at hx
      by_cases hc : curRev.isEmpty = true
      · rw [if_pos hc] at hx
        exact ih _ _ x hx
      · rw [if_neg hc] at hx
        rcases List.mem_cons.mp hx with h0 | h0
        · rw [h0]; rfl
        · exact ih _ _ x h0

/-- Helper: every block `process_run` emits has the shell of a block of its
run. -/
theorem process_run_shells (run : List DiffBlock) :
    ∀ x ∈ process_run run, ∃ b ∈ run, blockShell x = blockShell b := by
  cases run with
  | nil => intro x hx; exact absurd hx (List.not_mem_nil x)
  | cons b rest =>
    cases rest with
    | nil =>
      intro x hx
      simp only [process_run] at hx
      by_cases ha : b.action = "edit"
      · rw [if_pos ha] at hx
        by_cases hsp : (b.diff_lines.all
            (fun x => x.line_type == LineType.Space)) = true
        · rw [if_pos hsp] at hx
          exact ⟨b, List.mem_cons_self _ _, split_space_go_shells b _ 0 [] x hx⟩
        · rw [if_neg hsp] at hx
          rcases List.mem_cons.mp hx with h0 | h0
          · rw [h0]; exact ⟨b, List.mem_cons_self _ _, rfl⟩
          · exact absurd h0 (List.not_mem_nil x)
      · rw [if_neg ha] at hx
        rcases List.mem_cons.mp hx with h0 | h0
        · rw [h0]; exact ⟨b, List.mem_cons_self _ _, rfl⟩
        · exact absurd h0 (List.not_mem_nil x)
    | cons b2 rest2 =>
      intro x hx
      exact ⟨x, hx, rfl⟩

/-- Helper: every block the grouping fold emits has the shell of an input
block or of a block parked in the state. -/
theorem split_go_shells :
    ∀ (l : List DiffBlock) (st : Option (Nat × List DiffBlock)),
      ∀ x ∈ split_blocks_go st l,
        (∃ b ∈ l, blockShell x = blockShell b) ∨
        (∃ p : Nat × List DiffBlock, st = some p ∧
          ∃ b ∈ p.2, blockShell x = blockShell b) := by
  intro l
  induction l with
  | nil =>
    intro st x hx
    cases st with
    | none => exact absurd hx (List.not_mem_nil x)
    | some p =>
      rw [split_blocks_go.eq_3] at hx
      rcases process_run_shells _ x hx with ⟨b, hb, hsh⟩
      exact Or.inr ⟨p, rfl, b, List.mem_reverse.mp hb, hsh⟩
  | cons b rest ih =>
    intro st x hx
    cases st with
    | none =>
      rw [split_blocks_go.eq_2] at hx
      rcases ih (some (b.hunk_idx, [b])) x hx with h | ⟨q, hq, b2, hb2, hsh⟩
      · rcases h with ⟨b2, hb2, hsh⟩
        exact Or.inl ⟨b2, List.mem_cons_of_mem _ hb2, hsh⟩
      · cases Option.some.inj hq
        rcases List.mem_cons.mp hb2 with h0 | h0
        · rw [h0] at hsh
          exact Or.inl ⟨b, List.mem_cons_self _ _, hsh⟩
        · exact absurd h0 (List.not_mem_nil b2)
    | some p =>
      rw [split_blocks_go.eq_4] at hx
      by_cases hbp : b.hunk_idx = p.1
      · rw [if_pos hbp] at hx
        rcases ih (some (p.1, b :: p.2)) x hx with h | ⟨q, hq, b2, hb2, hsh⟩
        · rcases h with ⟨b2, hb2, hsh⟩
          exact Or.inl ⟨b2, List.mem_cons_of_mem _ hb2, hsh⟩
        · cases Option.some.inj hq
          rcases List.mem_cons.mp hb2 with h0 | h0
          · rw [h0] at hsh
            exact Or.inl ⟨b, List.mem_cons_self _ _, hsh⟩
          · exact Or.inr ⟨p, rfl, b2, h0, hsh⟩
      · rw [if_neg hbp] at hx
        rcases List.mem_append.mp hx with h0 | h0
        · rcases process_run_shells _ x h0 with ⟨b2, hb2, hsh⟩
          exact Or.inr ⟨p, rfl, b2, List.mem_reverse.mp hb2, hsh⟩
        · rcases ih (some (b.hunk_idx, [b])) x h0 with h | ⟨q, hq, b2, hb2, hsh⟩
          · rcases h with ⟨b2, hb2, hsh⟩
            exact Or.inl ⟨b2, List.mem_cons_of_mem _ hb2, hsh⟩
          · cases Option.some.inj hq
            rcases List.mem_cons.mp hb2 with h1 | h1
            · rw [h1] at hsh
              exact Or.inl ⟨b, List.mem_cons_self _ _, hsh⟩
            · exact absurd h1 (List.not_mem_nil b2)

/-- Helper: every block of the splitting pass has the shell of an input
block. -/
theorem splitting_shells (l : List DiffBlock) :
    ∀ x ∈ splitting_diff_blocks l, ∃ b ∈ l, blockShell x = blockShell b := by
  intro x hx
  rcases split_go_shells l none x hx with h | ⟨p, hp, _⟩
  · exact h
  · cases hp

/-- Helper: normalisation rewrites only `diff_lines`, never the shell. -/
theorem normalize_diff_block_shell (b b2 : DiffBlock)
    (h : normalize_diff_block b = Except.ok b2) :
    blockShell b2 = blockShell b := by
  simp only [normalize_diff_block] at h
  by_cases he : b.diff_lines.isEmpty = true
  · rw [if_pos he] at h
    rw [← Except.ok.inj h]
  · rw [if_neg he] at h
    split at h
    · rw [← Except.ok.inj h]
      rfl
    · exact absurd h (by simp)

/-- Helper: every normalised block has the shell of its input block. -/
theorem normalize_all_shells :
    ∀ (l rl : List DiffBlock), normalize_all l = Except.ok rl →
      ∀ x ∈ rl, ∃ b ∈ l, blockShell x = blockShell b := by
  intro l
  induction l with
  | nil =>
    intro rl h x hx
    have hr : ([] : List DiffBlock) = rl := Except.ok.inj h
    rw [← hr] at hx
    exact absurd hx (List.not_mem_nil x)
  | cons b rest ih =>
    intro rl h x hx
    rw [normalize_all.eq_2] at h
    cases hb : normalize_diff_block b with
    | error m => rw [hb] at h; exact absurd h (by simp)
    | ok b2 =>
      rw [hb] at h
      dsimp only at h
      cases hr : normalize_all rest with
      | error m => rw [hr] at h; exact absurd h (by simp)
      | ok rest2 =>
        rw [hr] at h
        dsimp only at h
        rw [← Except.ok.inj h] at hx
        rcases List.mem_cons.mp hx with h0 | h0
        · refine ⟨b, List.mem_cons_self _ _, ?_⟩
          rw [h0]
          exact normalize_diff_block_shell b b2 hb
        · rcases ih rest2 hr x h0 with ⟨b3, hb3, hsh⟩
          exact ⟨b3, List.mem_cons_of_mem _ hb3, hsh⟩

/-- Helper: a chunk's file name is one of its block's two header names. -/
theorem diff_chunk_of_block_name (b : DiffBlock) (c : DiffChunk)
    (h : diff_chunk_of_block b = some c) :
    c.file_name = b.file_name_before ∨ c.file_name = b.file_name_after := by
  simp only [diff_chunk_of_block] at h
  split at h
  · exact absurd h (by simp)
  · have hc := Option.some.inj h
    rw [← hc]
    by_cases ha : b.action = "add"
    · right; simp [ha]
    · by_cases hr : b.action = "remove"
      · left; simp [ha, hr]
      · by_cases hn : b.action = "rename"
        · left; simp [ha, hr, hn]
        · left; simp [ha, hr, hn]

/-- Helper: every chunk the pipeline produces is named by a header path of
one of the parsed hunks. -/
theorem pipeline_chunk_names (fs : FileSys) (es : List Edit)
    (B N : List DiffBlock)
    (hB : edit_hunks_go fs 0 es = Except.ok B)
    (hN : normalize_all (splitting_diff_blocks
        (search_diff_block_text_location B)) = Except.ok N) :
    ∀ c ∈ diff_blocks_to_diff_chunks (keep_edit_blocks_with_changes N),
      c.file_name ∈ edits_paths es := by
  intro c hc
  simp only [diff_blocks_to_diff_chunks] at hc
  rcases List.mem_filterMap.mp hc with ⟨b, hb, hbc⟩
  have hbN : b ∈ N := List.mem_of_mem_filter hb
  rcases normalize_all_shells _ N hN b hbN with ⟨b3, hb3, hsh3⟩
  rcases splitting_shells _ b3 hb3 with ⟨b4, hb4, hsh4⟩
  rcases search_shells B b4 hb4 with ⟨b5, hb5, hsh5⟩
  have hshell : blockShell b = blockShell b5 := by
    rw [hsh3, hsh4, hsh5]
  have hnb : b.file_name_before = b5.file_name_before :=
    congrArg (fun p => p.1) hshell
  have hna : b.file_name_after = b5.file_name_after :=
    congrArg (fun p => p.2.1) hshell
  obtain ⟨h5b, h5a⟩ := edit_hunks_go_names fs es 0 B hB b5 hb5
  rcases diff_chunk_of_block_name b c hbc with h | h
  · rw [h, hnb]; exact h5b
  · rw [h, hna]; exact h5a

/-- **C8** (corrected): `parse_message` applied to the newline-joined
concatenation of two inputs that each parse successfully — provided every
```` ```diff ```` fence of the first input is closed and the header paths of
the two inputs' hunks are disjoint — succeeds and returns the concatenation
of the two chunk lists.  (Plain string concatenation does not satisfy the
claim: see the counterexample, where a first input without a trailing
newline swallows the second input's opening fence.) -/
theorem c8_amended (fs : FileSys) (s1 s2 : List Char) (c1 c2 : List DiffChunk)
    (h1 : parse_message fs s1 = Except.ok c1)
    (h2 : parse_message fs s2 = Except.ok c2)
    (hclosed : scan_ends_outside true (rustLines s1) = true)
    (hdisj : ∀ p ∈ edits_paths (get_edit_hunks s1),
      p ∉ edits_paths (get_edit_hunks s2)) :
    parse_message fs (s1 ++ '\n' :: s2) = Except.ok (c1 ++ c2) := by
  unfold parse_message edit_hunks_to_diff_blocks at h1 h2
  cases hB1 : edit_hunks_go fs 0 (get_edit_hunks s1) with
  | error m => rw [hB1] at h1; exact absurd h1 (by simp)
  | ok B1 =>
  rw [hB1] at h1
  dsimp only at h1
  cases hN1 : normalize_all (splitting_diff_blocks
      (search_diff_block_text_location B1)) with
  | error m => rw [hN1] at h1; exact absurd h1 (by simp)
  | ok N1 =>
  rw [hN1] at h1
  dsimp only at h1
  have hc1 := Except.ok.inj h1
  cases hB2 : edit_hunks_go fs 0 (get_edit_hunks s2) with
  | error m => rw [hB2] at h2; exact absurd h2 (by simp)
  | ok B2 =>
  rw [hB2] at h2
  dsimp only at h2
  cases hN2 : normalize_all (splitting_diff_blocks
      (search_diff_block_text_location B2)) with
  | error m => rw [hN2] at h2; exact absurd h2 (by simp)
  | ok N2 =>
  rw [hN2] at h2
  dsimp only at h2
  have hc2 := Except.ok.inj h2
  have hne1 := get_edit_hunks_hunk_ne s1
  have hne2 := get_edit_hunks_hunk_ne s2
  have hlen1 := edit_hunks_go_length fs (get_edit_hunks s1) 0 B1 hne1 hB1
  have hlen2 := edit_hunks_go_length fs (get_edit_hunks s2) 0 B2 hne2 hB2
  have hbound1 : ∀ b ∈ B1, b.hunk_idx < (get_edit_hunks s1).length := by
    intro b hb
    have := edit_hunks_go_bounds fs (get_edit_hunks s1) 0 B1 hB1 b hb
    omega
  have hbound2 : ∀ b ∈ B2, b.hunk_idx < (get_edit_hunks s2).length := by
    intro b hb
    have := edit_hunks_go_bounds fs (get_edit_hunks s2) 0 B2 hB2 b hb
    omega
  have hsb1 : ∀ b ∈ search_diff_block_text_location B1,
      b.hunk_idx < (get_edit_hunks s1).length := by
    intro b hb
    exact search_fold_hunk_bound (List.range B1.length) B1
      (get_edit_hunks s1).length hbound1 b hb
  have hsb2 : ∀ b ∈ (search_diff_block_text_location B2).map
      (shiftB (get_edit_hunks s1).length),
      (get_edit_hunks s1).length ≤ b.hunk_idx := by
    intro b hb
    rcases List.mem_map.mp hb with ⟨b0, _, hb0⟩
    rw [← hb0]
    show (get_edit_hunks s1).length ≤ b0.hunk_idx + (get_edit_hunks s1).length
    omega
  have hN2s : normalize_all ((splitting_diff_blocks
      (search_diff_block_text_location B2)).map
        (shiftB (get_edit_hunks s1).length)) =
      Except.ok (N2.map (shiftB (get_edit_hunks s1).length)) := by
    rw [normalize_all_shift, hN2]
    rfl
  have hdisj2 : ∀ c ∈ diff_blocks_to_diff_chunks
      (keep_edit_blocks_with_changes N1),
      ∀ d ∈ diff_blocks_to_diff_chunks (keep_edit_blocks_with_changes N2),
        c ≠ d := by
    intro c hcm d hdm hcd
    have hcn := pipeline_chunk_names fs (get_edit_hunks s1) B1 N1 hB1 hN1 c hcm
    have hdn := pipeline_chunk_names fs (get_edit_hunks s2) B2 N2 hB2 hN2 d hdm
    rw [hcd] at hcn
    exact (hdisj d.file_name hcn) hdn
  unfold parse_message edit_hunks_to_diff_blocks
  rw [get_edit_hunks_append s1 s2 hclosed]
  rw [edit_hunks_go_append fs (get_edit_hunks s1) (get_edit_hunks s2) 0]
  rw [hB1]
  dsimp only
  rw [Nat.zero_add]
  rw [edit_hunks_go_shift fs (get_edit_hunks s2) (get_edit_hunks s1).length]
  rw [hB2]
  dsimp only [Except.map]
  rw [search_append B1 B2 (get_edit_hunks s1).length
    (get_edit_hunks s2).length hbound1 hlen1 hbound2 hlen2]
  rw [splitting_append (get_edit_hunks s1).length
    (search_diff_block_text_location B1)
    ((search_diff_block_text_location B2).map
      (shiftB (get_edit_hunks s1).length)) hsb1 hsb2]
  rw [splitting_shift (get_edit_hunks s1).length
    (search_diff_block_text_location B2)]
  rw [normalize_all_append
    (splitting_diff_blocks (search_diff_block_text_location B1))
    ((splitting_diff_blocks (search_diff_block_text_location B2)).map
      (shiftB (get_edit_hunks s1).length))
    N1 (N2.map (shiftB (get_edit_hunks s1).length)) hN1 hN2s]
  dsimp only
  rw [keep_edit_append, keep_edit_shift, diff_chunks_append, diff_chunks_shift]
  rw [unique_append_disjoint _ _ hdisj2]
  rw [hc1, hc2]

/-- Witness for the C8 amended theorem: an edit patch for `a.py` and an
add-file patch for `b.py`, each of which parses to one chunk, joined by a
newline parse to exactly the two chunks in order. -/
theorem c8_amended_witness :
    parse_message
      (fun p => if p = "a.py".toList then
        some ["old".toList, "keep".toList] else none)
      (("```diff\n--- a.py\n+++ a.py\n@@ @@\n-old\n+new\n```").toList ++
        '\n' ::
          ("```diff\n--- /dev/null\n+++ b.py\n@@ @@\n+world\n```").toList) =
      Except.ok
        [⟨"a.py".toList, none, "edit", 1, 2, "old\n".toList, "new\n".toList⟩,
         ⟨"b.py".toList, none, "add", 1, 1, [], "world\n".toList⟩] :=
  c8_amended
    (fun p => if p = "a.py".toList then
      some ["old".toList, "keep".toList] else none)
    (("```diff\n--- a.py\n+++ a.py\n@@ @@\n-old\n+new\n```").toList)
    (("```diff\n--- /dev/null\n+++ b.py\n@@ @@\n+world\n```").toList)
    [⟨"a.py".toList, none, "edit", 1, 2, "old\n".toList, "new\n".toList⟩]
    [⟨"b.py".toList, none, "add", 1, 1, [], "world\n".toList⟩]
    rfl rfl (by decide) (by decide)
